import Mathlib

/-!
Shallow embedding of the `SharcDelayLine` engine from `src/PluginProcessor.h`
(SHARC Echo/Delay plugin).  C++ `float`/`double` arithmetic is modelled by
exact rational arithmetic (`ℚ`), C++ `int` by `ℤ`, and the heap-allocated
`std::vector<float>` delay lines by `List ℚ`.  Out-of-range reads return the
default `0` and out-of-range writes are dropped; every theorem that relies on
an access keeps the index inside the list, matching the defined behaviour of
the C++ code.
-/

namespace SharcSpec

/-- Model of `juce::jlimit lower upper v`:
`v < lower ? lower : upper < v ? upper : v`. -/
def jlimit {α : Type} [LinearOrder α] (lower upper v : α) : α :=
  if v < lower then lower else if upper < v then upper else v

/-- Model of `static_cast<int>` of a real value: truncation toward zero. -/
def truncQ (x : ℚ) : ℤ :=
  if 0 ≤ x then ⌊x⌋ else ⌈x⌉

/-- The state of a `SharcDelayLine` object (private fields of the C++ class). -/
structure SharcDelayLine where
  delayLineLeft : List ℚ
  delayLineRight : List ℚ
  maxDelaySamples : ℤ
  delaySamples : ℤ
  delayIndex : ℤ
  feedback : ℚ
  wetMix : ℚ
  dryMix : ℚ
  sRate : ℚ
  prepared : Bool
deriving Repr, DecidableEq

/-- Default-constructed `SharcDelayLine` (member initialisers). -/
def SharcDelayLine.default : SharcDelayLine :=
  { delayLineLeft := []
    delayLineRight := []
    maxDelaySamples := 240000
    delaySamples := 48000
    delayIndex := 0
    feedback := 3/10
    wetMix := 1/2
    dryMix := 1/2
    sRate := 48000
    prepared := false }

/-- Model of `reset()`: `std::fill` both delay lines with `0.0f` and zero the cursor. -/
def reset (s : SharcDelayLine) : SharcDelayLine :=
  { s with
    delayLineLeft := s.delayLineLeft.map (fun _ => 0)
    delayLineRight := s.delayLineRight.map (fun _ => 0)
    delayIndex := 0 }

/-- Model of `std::vector::resize`: truncate, or pad with value-initialised (`0`)
elements. -/
def resizeList (l : List ℚ) (n : ℕ) : List ℚ :=
  if n ≤ l.length then l.take n else l ++ List.replicate (n - l.length) 0

/-- Model of `prepare(sRate, maxDelaySeconds)`: store the sample rate, compute
`maxDelaySamples = static_cast<int>(sRate * maxDelaySeconds)`, resize both
delay lines to that size, `reset()`, and set `prepared`. -/
def prepare (s : SharcDelayLine) (sRate : ℚ) (maxDelaySeconds : ℚ) : SharcDelayLine :=
  let maxDS : ℤ := truncQ (sRate * maxDelaySeconds)
  let s1 : SharcDelayLine :=
    { s with
      sRate := sRate
      maxDelaySamples := maxDS
      delayLineLeft := resizeList s.delayLineLeft maxDS.toNat
      delayLineRight := resizeList s.delayLineRight maxDS.toNat }
  { reset s1 with prepared := true }

/-- Model of `setDelaySeconds(seconds)`:
`delaySamples = jlimit(1, maxDelaySamples, static_cast<int>(seconds * sRate))`. -/
def setDelaySeconds (s : SharcDelayLine) (seconds : ℚ) : SharcDelayLine :=
  { s with delaySamples := jlimit 1 s.maxDelaySamples (truncQ (seconds * s.sRate)) }

/-- Model of `setFeedback(fb)`: clamp into `[0, 0.99]`. -/
def setFeedback (s : SharcDelayLine) (fb : ℚ) : SharcDelayLine :=
  { s with feedback := jlimit 0 (99/100) fb }

/-- Model of `setWetMix(wet)`: clamp into `[0, 1]`. -/
def setWetMix (s : SharcDelayLine) (wet : ℚ) : SharcDelayLine :=
  { s with wetMix := jlimit 0 1 wet }

/-- Model of `setDryMix(dry)`: clamp into `[0, 1]`. -/
def setDryMix (s : SharcDelayLine) (dry : ℚ) : SharcDelayLine :=
  { s with dryMix := jlimit 0 1 dry }

/-- The body of `processBlockScalar`'s `for` loop, iterated `rem` more times
with loop counter `i`.  State tuple: `(bufferLeft, bufferRight, idx, outputLeft,
outputRight)`.  Per sample: read the delayed values, write the mixed outputs,
store the hard-clipped feedback values, and advance `idx`, wrapping to `0` when
`idx + 1 ≥ len` (`len` is the captured `delaySamples`). -/
def scalarLoop (len : ℤ) (fb wet dry : ℚ) (inL inR : List ℚ) :
    ℕ → ℕ → List ℚ → List ℚ → ℤ → List ℚ → List ℚ →
    List ℚ × List ℚ × ℤ × List ℚ × List ℚ
  | _, 0, bufL, bufR, idx, outL, outR => (bufL, bufR, idx, outL, outR)
  | i, rem + 1, bufL, bufR, idx, outL, outR =>
      scalarLoop len fb wet dry inL inR (i + 1) rem
        (bufL.set idx.toNat (jlimit (-1) 1 (inL.getD i 0 + fb * bufL.getD idx.toNat 0)))
        (bufR.set idx.toNat (jlimit (-1) 1 (inR.getD i 0 + fb * bufR.getD idx.toNat 0)))
        (if idx + 1 ≥ len then 0 else idx + 1)
        (outL.set i (inL.getD i 0 * dry + bufL.getD idx.toNat 0 * wet))
        (outR.set i (inR.getD i 0 * dry + bufR.getD idx.toNat 0 * wet))

/-- Model of `processBlockScalar`: early-return when unprepared (outputs untouched),
otherwise run the per-sample loop and store the final cursor back into
`delayIndex`. -/
def processBlockScalar (s : SharcDelayLine) (inL inR outL outR : List ℚ)
    (numSamples : ℕ) : SharcDelayLine × List ℚ × List ℚ :=
  if s.prepared = false then (s, outL, outR)
  else
    let r := scalarLoop s.delaySamples s.feedback s.wetMix s.dryMix inL inR
      0 numSamples s.delayLineLeft s.delayLineRight s.delayIndex outL outR
    ({ s with delayLineLeft := r.1, delayLineRight := r.2.1, delayIndex := r.2.2.1 },
      r.2.2.2.1, r.2.2.2.2)

/-- Model of `SIMDRegister<float>::fromRawArray(p + off)`: a vector of `w` consecutive
samples starting at `off`. -/
def loadVec (l : List ℚ) : ℕ → ℕ → List ℚ
  | _, 0 => []
  | off, w + 1 => l.getD off 0 :: loadVec l (off + 1) w

/-- Model of `copyToRawArray(p + off)`: store the vector's lanes at `off`, `off+1`, …. -/
def storeVec : List ℚ → ℕ → List ℚ → List ℚ
  | l, _, [] => l
  | l, off, x :: xs => storeVec (l.set off x) (off + 1) xs

/-- One lap of the SIMD main loop of `processBlockSIMD`, run `c` more times:
per chunk, load `w` delayed samples at the buffer offset plus `w` input
samples, store the mixed outputs, and store the clipped feedback updates
(`jmax(clipMin, jmin(clipMax, ...))`, lane-wise); then advance the i/o
position and the buffer offset by `w`. -/
def simdChunkLoop (w : ℕ) (fb wet dry : ℚ) (inL inR : List ℚ) :
    ℕ → ℕ → ℕ → List ℚ → List ℚ → List ℚ → List ℚ →
    List ℚ × List ℚ × List ℚ × List ℚ
  | 0, _, _, bufL, bufR, outL, outR => (bufL, bufR, outL, outR)
  | c + 1, pos, off, bufL, bufR, outL, outR =>
      let delayedLeftVec := loadVec bufL off w
      let delayedRightVec := loadVec bufR off w
      let inputLeftVec := loadVec inL pos w
      let inputRightVec := loadVec inR pos w
      let outLv := List.zipWith (fun x d => x * dry + d * wet) inputLeftVec delayedLeftVec
      let outRv := List.zipWith (fun x d => x * dry + d * wet) inputRightVec delayedRightVec
      let newLv := List.zipWith (fun x d => x + d * fb) inputLeftVec delayedLeftVec
      let newRv := List.zipWith (fun x d => x + d * fb) inputRightVec delayedRightVec
      let clipLv := List.zipWith max (List.replicate w (-1))
        (List.zipWith min (List.replicate w 1) newLv)
      let clipRv := List.zipWith max (List.replicate w (-1))
        (List.zipWith min (List.replicate w 1) newRv)
      simdChunkLoop w fb wet dry inL inR c (pos + w) (off + w)
        (storeVec bufL off clipLv) (storeVec bufR off clipRv)
        (storeVec outL pos outLv) (storeVec outR pos outRv)

/-- The scalar-tail loop of `processBlockSIMD`, run `t` more times: same
per-sample computation as the scalar path but with a plain `++idx` (no wrap
test). -/
def simdTailLoop (fb wet dry : ℚ) (inL inR : List ℚ) :
    ℕ → ℕ → ℤ → List ℚ → List ℚ → List ℚ → List ℚ →
    List ℚ × List ℚ × ℤ × List ℚ × List ℚ
  | 0, _, idx, bufL, bufR, outL, outR => (bufL, bufR, idx, outL, outR)
  | t + 1, pos, idx, bufL, bufR, outL, outR =>
      simdTailLoop fb wet dry inL inR t (pos + 1) (idx + 1)
        (bufL.set idx.toNat (jlimit (-1) 1 (inL.getD pos 0 + fb * bufL.getD idx.toNat 0)))
        (bufR.set idx.toNat (jlimit (-1) 1 (inR.getD pos 0 + fb * bufR.getD idx.toNat 0)))
        (outL.set pos (inL.getD pos 0 * dry + bufL.getD idx.toNat 0 * wet))
        (outR.set pos (inR.getD pos 0 * dry + bufR.getD idx.toNat 0 * wet))

/-- The `while (samplesRemaining > 0)` loop of `processBlockSIMD`.  Each lap:
`samplesToEdge = min(samplesRemaining, len - idx)`, split into
`samplesToEdge / w` SIMD chunks (C++ `int` division truncates toward zero,
`Int.tdiv`) plus a scalar tail of `samplesToEdge % w` (`Int.tmod`); after the
chunk loop `idx += simdChunks * w`, the tail loop then increments `idx` once
per executed iteration; finally `samplesRemaining -= samplesToEdge` and `idx`
is wrapped to `0` once if `idx ≥ len`.  `fuel` bounds the number of laps so
the model is total: `none` models a call that exceeds the lap budget, which a
sufficient budget (see `processBlockSIMD`) makes equivalent to the C++ loop
not terminating normally within its intended iteration count. -/
def simdOuterLoop (w : ℕ) (len : ℤ) (fb wet dry : ℚ) (inL inR : List ℚ) :
    ℕ → ℤ → ℕ → ℤ → List ℚ → List ℚ → List ℚ → List ℚ →
    Option (List ℚ × List ℚ × ℤ × List ℚ × List ℚ)
  | 0, samplesRemaining, _, idx, bufL, bufR, outL, outR =>
      if 0 < samplesRemaining then none else some (bufL, bufR, idx, outL, outR)
  | fuel + 1, samplesRemaining, pos, idx, bufL, bufR, outL, outR =>
      if 0 < samplesRemaining then
        let samplesToEdge := min samplesRemaining (len - idx)
        let simdChunks := samplesToEdge.tdiv w
        let scalarTail := samplesToEdge.tmod w
        let r1 := simdChunkLoop w fb wet dry inL inR simdChunks.toNat pos idx.toNat
          bufL bufR outL outR
        let idx1 := idx + simdChunks * w
        let r2 := simdTailLoop fb wet dry inL inR scalarTail.toNat
          (pos + simdChunks.toNat * w) idx1 r1.1 r1.2.1 r1.2.2.1 r1.2.2.2
        let idx2 := r2.2.2.1
        simdOuterLoop w len fb wet dry inL inR fuel
          (samplesRemaining - samplesToEdge)
          (pos + simdChunks.toNat * w + scalarTail.toNat)
          (if idx2 ≥ len then 0 else idx2)
          r2.1 r2.2.1 r2.2.2.2.1 r2.2.2.2.2
      else some (bufL, bufR, idx, outL, outR)

/-- Lap budget used by `processBlockSIMD`: when the cursor is in range every
lap consumes at least one sample, so `numSamples` laps suffice; when the
cursor starts at or beyond `delaySamples`, one extra lap rewinds it to `0`
after growing `samplesRemaining` by at most the cursor value.  The budget
covers every terminating execution of the C++ loop. -/
def simdFuel (s : SharcDelayLine) (numSamples : ℕ) : ℕ :=
  numSamples + s.delayIndex.toNat + 2

/-- Model of `processBlockSIMD` for a vector width `w`
(`juce::dsp::SIMDRegister<float>::size()`, a platform compile-time constant):
early-return when unprepared, otherwise run the edge-aware chunked loop and
store the final cursor. -/
def processBlockSIMD (w : ℕ) (s : SharcDelayLine) (inL inR outL outR : List ℚ)
    (numSamples : ℕ) : Option (SharcDelayLine × List ℚ × List ℚ) :=
  if s.prepared = false then some (s, outL, outR)
  else
    match simdOuterLoop w s.delaySamples s.feedback s.wetMix s.dryMix inL inR
      (simdFuel s numSamples) numSamples 0 s.delayIndex
      s.delayLineLeft s.delayLineRight outL outR with
    | none => none
    | some r =>
        some ({ s with delayLineLeft := r.1, delayLineRight := r.2.1,
                       delayIndex := r.2.2.1 }, r.2.2.2.1, r.2.2.2.2)

/-- Ghost trace of `simdOuterLoop`'s cursor arithmetic: the list of
`(idx, samplesToEdge)` pairs of each lap.  The cursor evolution of the outer
loop is data independent (`idx` advances by `simdChunks * w` plus one per
executed tail iteration), which this definition mirrors; `none` mirrors fuel
exhaustion.  `simdOuterLoop_isSome_iff_trace` ties it to the real loop. -/
def simdIdxTrace (w : ℕ) (len : ℤ) : ℕ → ℤ → ℤ → Option (List (ℤ × ℤ))
  | 0, samplesRemaining, _ =>
      if 0 < samplesRemaining then none else some []
  | fuel + 1, samplesRemaining, idx =>
      if 0 < samplesRemaining then
        let samplesToEdge := min samplesRemaining (len - idx)
        let simdChunks := samplesToEdge.tdiv w
        let scalarTail := samplesToEdge.tmod w
        let idx2 := idx + simdChunks * w + scalarTail.toNat
        (simdIdxTrace w len fuel (samplesRemaining - samplesToEdge)
          (if idx2 ≥ len then 0 else idx2)).map (fun tr => (idx, samplesToEdge) :: tr)
      else some []

/-- Concrete prepared engine used to refute C4 as stated: sample rate 10. -/
def c4state : SharcDelayLine :=
  { SharcDelayLine.default with sRate := 10, maxDelaySamples := 100, prepared := true }

/-- The single-sample recurrence exactly as the claim words it, as a state
transformer for `foldl` over the sample indices: for sample `n`, first output
`input[n] * dryMix + buffer[idx] * wetMix` per channel, then store
`clamp(input[n] + feedback * buffer[idx], -1, 1)` back into `buffer[idx]`,
then advance `idx` by one, wrapping to `0` when it reaches `len`
(= `delaySamples`). -/
def claimStep (len : ℤ) (fb wet dry : ℚ) (inL inR : List ℚ)
    (st : List ℚ × List ℚ × ℤ × List ℚ × List ℚ) (n : ℕ) :
    List ℚ × List ℚ × ℤ × List ℚ × List ℚ :=
  (st.1.set st.2.2.1.toNat (jlimit (-1) 1 (inL.getD n 0 + fb * st.1.getD st.2.2.1.toNat 0)),
   st.2.1.set st.2.2.1.toNat (jlimit (-1) 1 (inR.getD n 0 + fb * st.2.1.getD st.2.2.1.toNat 0)),
   if st.2.2.1 + 1 ≥ len then 0 else st.2.2.1 + 1,
   st.2.2.2.1.set n (inL.getD n 0 * dry + st.1.getD st.2.2.1.toNat 0 * wet),
   st.2.2.2.2.set n (inR.getD n 0 * dry + st.2.1.getD st.2.2.1.toNat 0 * wet))

/-- Concrete prepared engine used by several witnesses. -/
def wState : SharcDelayLine :=
  { delayLineLeft := List.replicate 5 0
    delayLineRight := List.replicate 5 0
    maxDelaySamples := 5
    delaySamples := 3
    delayIndex := 0
    feedback := 1/2
    wetMix := 1
    dryMix := 1/4
    sRate := 10
    prepared := true }

/-- Prepared engine whose cursor sits beyond the active loop length
(`delayIndex = 5 ≥ delaySamples = 3`) — a state the spec's own data-model
invariant (`writeReadIndex ∈ [0, maxDelaySamples)`) allows, reachable by
shrinking the delay with `setDelaySeconds` after the cursor has advanced. -/
def badState : SharcDelayLine :=
  { delayLineLeft := List.replicate 10 0
    delayLineRight := List.replicate 10 0
    maxDelaySamples := 10
    delaySamples := 3
    delayIndex := 5
    feedback := 0
    wetMix := 1
    dryMix := 1
    sRate := 10
    prepared := true }

/-- A sequence of consecutive scalar block calls with sizes `cs`, each picking
up the previous call's engine state and the advanced input/output pointers
(`drop`), with the produced outputs stitched back together. -/
def runCalls : List ℕ → SharcDelayLine → List ℚ → List ℚ → List ℚ → List ℚ →
    SharcDelayLine × List ℚ × List ℚ
  | [], s, _, _, outL, outR => (s, outL, outR)
  | c :: cs, s, inL, inR, outL, outR =>
      let r := processBlockScalar s inL inR outL outR c
      let r2 := runCalls cs r.1 (inL.drop c) (inR.drop c) (r.2.1.drop c) (r.2.2.drop c)
      (r2.1, r.2.1.take c ++ r2.2.1, r.2.2.take c ++ r2.2.2)

/-- Concrete reset engine for the C7 witness: `delaySamples = 2`, feedback
`1/2`, wet `1`, dry `0`. -/
def c7state : SharcDelayLine :=
  { delayLineLeft := List.replicate 3 0
    delayLineRight := List.replicate 3 0
    maxDelaySamples := 3
    delaySamples := 2
    delayIndex := 0
    feedback := 1/2
    wetMix := 1
    dryMix := 0
    sRate := 10
    prepared := true }

/-- Prepared engine used to show `setDelaySeconds` can shrink `delaySamples`
below the current cursor. -/
def c10shrink : SharcDelayLine :=
  { delayLineLeft := List.replicate 10 0
    delayLineRight := List.replicate 10 0
    maxDelaySamples := 10
    delaySamples := 9
    delayIndex := 5
    feedback := 0
    wetMix := 1
    dryMix := 1
    sRate := 10
    prepared := true }

/-! ### List helper lemmas -/

theorem getD_cons_succ (x : ℚ) (xs : List ℚ) (j : ℕ) (d : ℚ) :
    (x :: xs).getD (j + 1) d = xs.getD j d := rfl

theorem getD_cons_zero (x : ℚ) (xs : List ℚ) (d : ℚ) :
    (x :: xs).getD 0 d = x := rfl

theorem getD_nil (j : ℕ) (d : ℚ) : ([] : List ℚ).getD j d = d := rfl

theorem getD_set_ne (l : List ℚ) (i j : ℕ) (v d : ℚ) (h : i ≠ j) :
    (l.set i v).getD j d = l.getD j d := by
  induction l generalizing i j with
  | nil => rfl
  | cons x xs ih =>
      cases i with
      | zero =>
          cases j with
          | zero => exact absurd rfl h
          | succ j => rfl
      | succ i =>
          cases j with
          | zero => rfl
          | succ j => exact ih i j (by omega)

theorem getD_set_self (l : List ℚ) (i : ℕ) (v d : ℚ) (h : i < l.length) :
    (l.set i v).getD i d = v := by
  induction l generalizing i with
  | nil => simp at h
  | cons x xs ih =>
      cases i with
      | zero => rfl
      | succ i => exact ih i (by simpa using h)

theorem getD_oob (l : List ℚ) (j : ℕ) (d : ℚ) (h : l.length ≤ j) :
    l.getD j d = d := by
  induction l generalizing j with
  | nil => rfl
  | cons x xs ih =>
      cases j with
      | zero => simp at h
      | succ j => exact ih j (by simpa using h)

theorem getD_drop (l : List ℚ) (a j : ℕ) (d : ℚ) :
    (l.drop a).getD j d = l.getD (a + j) d := by
  induction a generalizing l with
  | zero => simp
  | succ a ih =>
      cases l with
      | nil => rfl
      | cons x xs =>
          have : a + 1 + j = (a + j) + 1 := by omega
          rw [List.drop_succ_cons, ih, this, getD_cons_succ]

theorem drop_set (l : List ℚ) (a j : ℕ) (v : ℚ) :
    (l.set (a + j) v).drop a = (l.drop a).set j v := by
  induction a generalizing l with
  | zero => simp
  | succ a ih =>
      cases l with
      | nil => rfl
      | cons x xs =>
          have : a + 1 + j = (a + j) + 1 := by omega
          rw [this, List.set_cons_succ, List.drop_succ_cons, List.drop_succ_cons, ih]

theorem take_set (l : List ℚ) (a i : ℕ) (v : ℚ) (h : a ≤ i) :
    (l.set i v).take a = l.take a := by
  induction a generalizing l i with
  | zero => simp
  | succ a ih =>
      cases l with
      | nil => rfl
      | cons x xs =>
          cases i with
          | zero => omega
          | succ i =>
              rw [List.set_cons_succ, List.take_succ_cons, List.take_succ_cons,
                ih xs i (by omega)]

theorem getD_replicate_zero (m j : ℕ) :
    (List.replicate m (0 : ℚ)).getD j 0 = 0 := by
  induction m generalizing j with
  | zero => rfl
  | succ m ih =>
      cases j with
      | zero => rfl
      | succ j =>
          rw [List.replicate_succ, getD_cons_succ, ih j]

theorem set_replicate_zero (m i : ℕ) :
    (List.replicate m (0 : ℚ)).set i 0 = List.replicate m 0 := by
  induction m generalizing i with
  | zero => rfl
  | succ m ih =>
      cases i with
      | zero => rfl
      | succ i =>
          rw [List.replicate_succ, List.set_cons_succ, ih i]

theorem set_zero_tail (m : ℕ) (b : ℚ) (j : ℕ) (h : 1 ≤ j) :
    ((List.replicate m (0 : ℚ)).set 0 b).set j 0 = (List.replicate m 0).set 0 b := by
  cases m with
  | zero => rfl
  | succ m =>
      cases j with
      | zero => omega
      | succ j =>
          rw [List.replicate_succ, List.set_cons_zero, List.set_cons_succ,
            set_replicate_zero m j]

theorem getD_set_zero_head (m : ℕ) (b : ℚ) (hm : 1 ≤ m) :
    ((List.replicate m (0 : ℚ)).set 0 b).getD 0 0 = b := by
  cases m with
  | zero => omega
  | succ m => rfl

theorem getD_set_zero_tail (m : ℕ) (b : ℚ) (j : ℕ) (h : 1 ≤ j) :
    ((List.replicate m (0 : ℚ)).set 0 b).getD j 0 = 0 := by
  cases m with
  | zero =>
      cases j with
      | zero => omega
      | succ j => rfl
  | succ m =>
      cases j with
      | zero => omega
      | succ j =>
          have : ((List.replicate (m + 1) (0 : ℚ)).set 0 b) = b :: List.replicate m 0 := by
            simp [List.replicate_succ]
          rw [this, getD_cons_succ, getD_replicate_zero]

theorem map_const_zero (l : List ℚ) :
    l.map (fun _ => (0 : ℚ)) = List.replicate l.length 0 := by
  induction l with
  | nil => rfl
  | cons x xs ih => simp [List.replicate_succ, ih]

theorem length_resizeList (l : List ℚ) (n : ℕ) : (resizeList l n).length = n := by
  unfold resizeList
  split
  · simpa using (by omega : min n l.length = n)
  · simp; omega

/-! ### Basic facts about `jlimit` -/

theorem jlimit_eq_max_min (lower upper v : ℚ) (h : lower ≤ upper) :
    jlimit lower upper v = max lower (min upper v) := by
  unfold jlimit
  rcases lt_or_ge v lower with h1 | h1
  · rw [if_pos h1]
    rw [min_eq_right (le_of_lt (lt_of_lt_of_le h1 h)), max_eq_left (le_of_lt h1)]
  · rw [if_neg (not_lt.mpr h1)]
    rcases lt_or_ge upper v with h2 | h2
    · rw [if_pos h2, min_eq_left (le_of_lt h2), max_eq_right h]
    · rw [if_neg (not_lt.mpr h2), min_eq_right h2, max_eq_right h1]

theorem jlimit_mem (v : ℚ) : -1 ≤ jlimit (-1) 1 v ∧ jlimit (-1) 1 v ≤ 1 := by
  unfold jlimit
  rcases lt_or_ge v (-1) with h1 | h1
  · rw [if_pos h1]; norm_num
  · rw [if_neg (not_lt.mpr h1)]
    rcases lt_or_ge 1 v with h2 | h2
    · rw [if_pos h2]; norm_num
    · rw [if_neg (not_lt.mpr h2)]; exact ⟨h1, h2⟩

theorem jlimit_id (v : ℚ) (h1 : -1 ≤ v) (h2 : v ≤ 1) : jlimit (-1) 1 v = v := by
  unfold jlimit
  rw [if_neg (not_lt.mpr h1), if_neg (not_lt.mpr h2)]

/-! ### Claims C4, C5, C8, C9 -/


/-- **C4 (counterexample)**: the claim says `setDelaySeconds` rounds
`seconds * sampleRate`; the code truncates (`static_cast<int>`).  At
`seconds = 0.19`, `sampleRate = 10` the product is `1.9`: the code stores `1`,
rounding would store `2`. -/
theorem c4_round_counterexample :
    (setDelaySeconds c4state (19/100)).delaySamples ≠
      jlimit 1 c4state.maxDelaySamples (round ((19/100 : ℚ) * c4state.sRate)) := by
  have hL : (setDelaySeconds c4state (19/100)).delaySamples = 1 := by
    show jlimit 1 c4state.maxDelaySamples (truncQ ((19/100 : ℚ) * c4state.sRate)) = 1
    have h1 : truncQ ((19/100 : ℚ) * c4state.sRate) = 1 := by
      show truncQ ((19/100 : ℚ) * 10) = 1
      unfold truncQ
      rw [if_pos (by norm_num)]
      norm_num
    rw [h1]
    rfl
  have hR : round ((19/100 : ℚ) * c4state.sRate) = 2 := by
    show round ((19/100 : ℚ) * 10) = 2
    norm_num [round_eq]
  rw [hL, hR]
  decide

/-- **C4 (amended)**: `setDelaySeconds(seconds)` sets `delaySamples` to
`seconds * sampleRate` truncated toward zero (`static_cast<int>`, not
rounded), clamped into `[1, maxDelaySamples]`, for every seconds value and
every prepared engine. -/
theorem c4_setDelaySeconds_truncates (s : SharcDelayLine) (seconds : ℚ)
    (_h : s.prepared = true) :
    (setDelaySeconds s seconds).delaySamples =
      jlimit 1 s.maxDelaySamples (truncQ (seconds * s.sRate)) := rfl

/-- **C4 (witness)**: the amended claim at `seconds = 0.19` on the concrete
prepared engine. -/
theorem c4_witness :
    c4state.prepared = true ∧
      (setDelaySeconds c4state (19/100)).delaySamples =
        jlimit 1 c4state.maxDelaySamples (truncQ ((19/100 : ℚ) * c4state.sRate)) :=
  ⟨rfl, c4_setDelaySeconds_truncates c4state (19/100) rfl⟩

/-- **C5**: calling `processBlockScalar` or `processBlockSIMD` on an
unprepared engine is a no-op: the caller-supplied output buffers are returned
untouched and the engine state is unchanged. -/
theorem c5_unprepared_noop (w : ℕ) (s : SharcDelayLine)
    (inL inR outL outR : List ℚ) (n : ℕ) (h : s.prepared = false) :
    processBlockScalar s inL inR outL outR n = (s, outL, outR) ∧
      processBlockSIMD w s inL inR outL outR n = some (s, outL, outR) := by
  constructor
  · unfold processBlockScalar
    rw [if_pos h]
  · unfold processBlockSIMD
    rw [if_pos h]

/-- **C5 (witness)**: the no-op on the default-constructed (unprepared)
engine, with nonempty in/out buffers. -/
theorem c5_witness :
    SharcDelayLine.default.prepared = false ∧
      processBlockScalar SharcDelayLine.default [1] [1] [2] [2] 1 =
        (SharcDelayLine.default, [2], [2]) ∧
      processBlockSIMD 4 SharcDelayLine.default [1] [1] [2] [2] 1 =
        some (SharcDelayLine.default, [2], [2]) :=
  ⟨rfl, (c5_unprepared_noop 4 SharcDelayLine.default [1] [1] [2] [2] 1 rfl).1,
    (c5_unprepared_noop 4 SharcDelayLine.default [1] [1] [2] [2] 1 rfl).2⟩

/-- **C8**: `prepare(sampleRate, maxDelaySeconds)` sets `maxDelaySamples` to
`floor(sampleRate * maxDelaySeconds)` (for the meaningful nonnegative
products, where `static_cast<int>` truncation equals `floor`), resizes both
channel buffers to exactly that length, zeroes every element, resets the
cursor to `0`, and marks the engine prepared. -/
theorem c8_prepare_spec (s : SharcDelayLine) (r m : ℚ) (h : 0 ≤ r * m) :
    (prepare s r m).maxDelaySamples = ⌊r * m⌋ ∧
      (prepare s r m).delayLineLeft = List.replicate (⌊r * m⌋).toNat 0 ∧
      (prepare s r m).delayLineRight = List.replicate (⌊r * m⌋).toNat 0 ∧
      (prepare s r m).delayIndex = 0 ∧
      (prepare s r m).prepared = true := by
  have htr : truncQ (r * m) = ⌊r * m⌋ := by unfold truncQ; rw [if_pos h]
  unfold prepare reset
  refine ⟨htr, ?_, ?_, rfl, rfl⟩
  · simp only [map_const_zero, length_resizeList, htr]
  · simp only [map_const_zero, length_resizeList, htr]

/-- **C8 (witness)**: `prepare` at sample rate `3`, max delay `5/2` seconds
(product `15/2`, floor `7`). -/
theorem c8_witness :
    (0 : ℚ) ≤ 3 * (5/2) ∧
      (prepare SharcDelayLine.default 3 (5/2)).maxDelaySamples = ⌊(3 : ℚ) * (5/2)⌋ ∧
      (prepare SharcDelayLine.default 3 (5/2)).delayLineLeft =
        List.replicate (⌊(3 : ℚ) * (5/2)⌋).toNat 0 ∧
      (prepare SharcDelayLine.default 3 (5/2)).delayLineRight =
        List.replicate (⌊(3 : ℚ) * (5/2)⌋).toNat 0 ∧
      (prepare SharcDelayLine.default 3 (5/2)).delayIndex = 0 ∧
      (prepare SharcDelayLine.default 3 (5/2)).prepared = true :=
  ⟨by norm_num, c8_prepare_spec SharcDelayLine.default 3 (5/2) (by norm_num)⟩

/-- **C9**: `reset()` zeroes every element of both delay buffers (their
lengths unchanged) and sets the cursor to `0`, and changes nothing else:
`feedback`, `wetMix`, `dryMix`, `delaySamples`, `maxDelaySamples`, `sRate` and
the `prepared` flag are all unchanged. -/
theorem c9_reset_spec (s : SharcDelayLine) :
    (reset s).delayLineLeft = List.replicate s.delayLineLeft.length 0 ∧
      (reset s).delayLineRight = List.replicate s.delayLineRight.length 0 ∧
      (reset s).delayIndex = 0 ∧
      (reset s).feedback = s.feedback ∧
      (reset s).wetMix = s.wetMix ∧
      (reset s).dryMix = s.dryMix ∧
      (reset s).delaySamples = s.delaySamples ∧
      (reset s).maxDelaySamples = s.maxDelaySamples ∧
      (reset s).sRate = s.sRate ∧
      (reset s).prepared = s.prepared :=
  ⟨map_const_zero _, map_const_zero _, rfl, rfl, rfl, rfl, rfl, rfl, rfl, rfl⟩

/-! ### Claim C1: scalar path follows the claimed per-sample recurrence -/


theorem scalarLoop_eq_foldl (len : ℤ) (fb wet dry : ℚ) (inL inR : List ℚ) :
    ∀ (k i : ℕ) (bufL bufR : List ℚ) (idx : ℤ) (outL outR : List ℚ),
    scalarLoop len fb wet dry inL inR i k bufL bufR idx outL outR =
      (List.range' i k).foldl (claimStep len fb wet dry inL inR)
        (bufL, bufR, idx, outL, outR) := by
  intro k
  induction k with
  | zero => intro i bufL bufR idx outL outR; rfl
  | succ k ih =>
      intro i bufL bufR idx outL outR
      calc scalarLoop len fb wet dry inL inR i (k + 1) bufL bufR idx outL outR
          = scalarLoop len fb wet dry inL inR (i + 1) k
              (bufL.set idx.toNat (jlimit (-1) 1 (inL.getD i 0 + fb * bufL.getD idx.toNat 0)))
              (bufR.set idx.toNat (jlimit (-1) 1 (inR.getD i 0 + fb * bufR.getD idx.toNat 0)))
              (if idx + 1 ≥ len then 0 else idx + 1)
              (outL.set i (inL.getD i 0 * dry + bufL.getD idx.toNat 0 * wet))
              (outR.set i (inR.getD i 0 * dry + bufR.getD idx.toNat 0 * wet)) := rfl
        _ = (List.range' (i + 1) k).foldl (claimStep len fb wet dry inL inR)
              (claimStep len fb wet dry inL inR (bufL, bufR, idx, outL, outR) i) :=
            ih (i + 1) _ _ _ _ _
        _ = (List.range' i (k + 1)).foldl (claimStep len fb wet dry inL inR)
              (bufL, bufR, idx, outL, outR) := by
            rw [List.range'_succ, List.foldl_cons]

/-- **C1**: for every prepared engine, `processBlockScalar` processes the
block's samples in order with a single cursor: iterating, over the sample
indices `0, …, numSamples-1`, exactly the claimed per-sample step
(`claimStep` with `len = delaySamples`, so the wrap is at `delaySamples`, not
`maxDelaySamples`), and on return the engine's cursor equals the final `idx`
of that iteration. -/
theorem c1_scalar_follows_recurrence (s : SharcDelayLine)
    (inL inR outL outR : List ℚ) (n : ℕ) (h : s.prepared = true) :
    processBlockScalar s inL inR outL outR n =
      (let r := (List.range n).foldl
        (claimStep s.delaySamples s.feedback s.wetMix s.dryMix inL inR)
        (s.delayLineLeft, s.delayLineRight, s.delayIndex, outL, outR)
      ({ s with delayLineLeft := r.1, delayLineRight := r.2.1,
                delayIndex := r.2.2.1 },
        r.2.2.2.1, r.2.2.2.2)) := by
  unfold processBlockScalar
  rw [if_neg (by simp [h]), List.range_eq_range']
  simp only [scalarLoop_eq_foldl]


/-- **C1 (witness)**: the recurrence equality at a concrete prepared engine
and a concrete 2-sample block. -/
theorem c1_witness :
    wState.prepared = true ∧
      processBlockScalar wState [1, 1/2] [1, 1/2] [0, 0] [0, 0] 2 =
        (let r := (List.range 2).foldl
          (claimStep wState.delaySamples wState.feedback wState.wetMix wState.dryMix
            [1, 1/2] [1, 1/2])
          (wState.delayLineLeft, wState.delayLineRight, wState.delayIndex, [0, 0], [0, 0])
        ({ wState with delayLineLeft := r.1, delayLineRight := r.2.1,
                       delayIndex := r.2.2.1 },
          r.2.2.2.1, r.2.2.2.2)) :=
  ⟨rfl, c1_scalar_follows_recurrence wState [1, 1/2] [1, 1/2] [0, 0] [0, 0] 2 rfl⟩

/-! ### Equivalence of the SIMD path with the scalar path -/

theorem simdTailLoop_idx (fb wet dry : ℚ) (inL inR : List ℚ) :
    ∀ (t : ℕ) (pos : ℕ) (idx : ℤ) (bufL bufR outL outR : List ℚ),
    (simdTailLoop fb wet dry inL inR t pos idx bufL bufR outL outR).2.2.1 =
      idx + t := by
  intro t
  induction t with
  | zero => intro pos idx bufL bufR outL outR; simp [simdTailLoop]
  | succ t ih =>
      intro pos idx bufL bufR outL outR
      show (simdTailLoop fb wet dry inL inR t (pos + 1) (idx + 1) _ _ _ _).2.2.1 = _
      rw [ih]
      omega

theorem simdTailLoop_add (fb wet dry : ℚ) (inL inR : List ℚ) :
    ∀ (a b : ℕ) (pos : ℕ) (idx : ℤ) (bufL bufR outL outR : List ℚ),
    simdTailLoop fb wet dry inL inR (a + b) pos idx bufL bufR outL outR =
      (let r := simdTailLoop fb wet dry inL inR a pos idx bufL bufR outL outR
       simdTailLoop fb wet dry inL inR b (pos + a) r.2.2.1 r.1 r.2.1
         r.2.2.2.1 r.2.2.2.2) := by
  intro a
  induction a with
  | zero => intro b pos idx bufL bufR outL outR; simp [simdTailLoop]
  | succ a ih =>
      intro b pos idx bufL bufR outL outR
      have h1 : a + 1 + b = (a + b) + 1 := by omega
      rw [h1]
      show simdTailLoop fb wet dry inL inR (a + b) (pos + 1) (idx + 1) _ _ _ _ = _
      rw [ih]
      have h2 : pos + 1 + a = pos + (a + 1) := by omega
      rw [h2]
      rfl

theorem loadVec_set_lt (l : List ℚ) (i : ℕ) (v : ℚ) :
    ∀ (w off : ℕ), i < off → loadVec (l.set i v) off w = loadVec l off w := by
  intro w
  induction w with
  | zero => intro off _; rfl
  | succ w ih =>
      intro off h
      show (l.set i v).getD off 0 :: loadVec (l.set i v) (off + 1) w = _
      rw [getD_set_ne l i off v 0 (by omega), ih (off + 1) (by omega)]
      rfl

/-- One SIMD chunk body equals `w` iterations of the scalar-tail loop (the
lanes touch pairwise distinct buffer cells and i/o positions, and all lane
loads precede all lane stores). -/
theorem chunk_body_eq_tail (fb wet dry : ℚ) (inL inR : List ℚ) :
    ∀ (w off pos : ℕ) (bufL bufR outL outR : List ℚ),
    (let r := simdTailLoop fb wet dry inL inR w pos (off : ℤ) bufL bufR outL outR
     (r.1, r.2.1, r.2.2.2.1, r.2.2.2.2)) =
      (storeVec bufL off (List.zipWith max (List.replicate w (-1))
          (List.zipWith min (List.replicate w 1)
            (List.zipWith (fun x d => x + d * fb) (loadVec inL pos w) (loadVec bufL off w)))),
        storeVec bufR off (List.zipWith max (List.replicate w (-1))
          (List.zipWith min (List.replicate w 1)
            (List.zipWith (fun x d => x + d * fb) (loadVec inR pos w) (loadVec bufR off w)))),
        storeVec outL pos (List.zipWith (fun x d => x * dry + d * wet)
          (loadVec inL pos w) (loadVec bufL off w)),
        storeVec outR pos (List.zipWith (fun x d => x * dry + d * wet)
          (loadVec inR pos w) (loadVec bufR off w))) := by
  intro w
  induction w with
  | zero => intro off pos bufL bufR outL outR; rfl
  | succ w ih =>
      intro off pos bufL bufR outL outR
      have hoff : ((off : ℤ)).toNat = off := Int.toNat_natCast off
      have hcast : (off : ℤ) + 1 = ((off + 1 : ℕ) : ℤ) := by push_cast; ring
      have hclipL : jlimit (-1) 1 (inL.getD pos 0 + fb * bufL.getD off 0) =
          max (-1) (min 1 (inL.getD pos 0 + bufL.getD off 0 * fb)) := by
        rw [jlimit_eq_max_min _ _ _ (by norm_num), mul_comm fb]
      have hclipR : jlimit (-1) 1 (inR.getD pos 0 + fb * bufR.getD off 0) =
          max (-1) (min 1 (inR.getD pos 0 + bufR.getD off 0 * fb)) := by
        rw [jlimit_eq_max_min _ _ _ (by norm_num), mul_comm fb]
      show (let r := simdTailLoop fb wet dry inL inR w (pos + 1) ((off : ℤ) + 1)
              (bufL.set ((off : ℤ)).toNat
                (jlimit (-1) 1 (inL.getD pos 0 + fb * bufL.getD ((off : ℤ)).toNat 0)))
              (bufR.set ((off : ℤ)).toNat
                (jlimit (-1) 1 (inR.getD pos 0 + fb * bufR.getD ((off : ℤ)).toNat 0)))
              (outL.set pos (inL.getD pos 0 * dry + bufL.getD ((off : ℤ)).toNat 0 * wet))
              (outR.set pos (inR.getD pos 0 * dry + bufR.getD ((off : ℤ)).toNat 0 * wet))
            (r.1, r.2.1, r.2.2.2.1, r.2.2.2.2)) = _
      rw [hoff, hcast, ih (off + 1) (pos + 1)]
      show (storeVec (bufL.set off _) (off + 1) _, storeVec (bufR.set off _) (off + 1) _,
        storeVec (outL.set pos _) (pos + 1) _, storeVec (outR.set pos _) (pos + 1) _) = _
      rw [loadVec_set_lt bufL off _ w (off + 1) (by omega),
        loadVec_set_lt bufR off _ w (off + 1) (by omega)]
      show _ = (storeVec bufL off (_ :: _), storeVec bufR off (_ :: _),
        storeVec outL pos (_ :: _), storeVec outR pos (_ :: _))
      rw [hclipL, hclipR]
      rfl

/-- The SIMD chunk loop equals `c * w` iterations of the scalar-tail loop. -/
theorem simdChunkLoop_eq_tail (w : ℕ) (fb wet dry : ℚ) (inL inR : List ℚ) :
    ∀ (c pos off : ℕ) (bufL bufR outL outR : List ℚ),
    simdChunkLoop w fb wet dry inL inR c pos off bufL bufR outL outR =
      (let r := simdTailLoop fb wet dry inL inR (c * w) pos (off : ℤ)
        bufL bufR outL outR
       (r.1, r.2.1, r.2.2.2.1, r.2.2.2.2)) := by
  intro c
  induction c with
  | zero =>
      intro pos off bufL bufR outL outR
      rw [Nat.zero_mul]
      rfl
  | succ c ih =>
      intro pos off bufL bufR outL outR
      have hb := chunk_body_eq_tail fb wet dry inL inR w off pos bufL bufR outL outR
      rcases htail : simdTailLoop fb wet dry inL inR w pos (off : ℤ)
        bufL bufR outL outR with ⟨A1, A2, I1, A3, A4⟩
      rw [htail] at hb
      have hI1 : I1 = (off : ℤ) + w := by
        have := simdTailLoop_idx fb wet dry inL inR w pos (off : ℤ) bufL bufR outL outR
        rw [htail] at this
        exact this
      simp only [Prod.mk.injEq] at hb
      show simdChunkLoop w fb wet dry inL inR c (pos + w) (off + w) _ _ _ _ = _
      rw [← hb.1, ← hb.2.1, ← hb.2.2.1, ← hb.2.2.2, ih (pos + w) (off + w) A1 A2 A3 A4]
      have hmul : (c + 1) * w = w + c * w := by ring
      rw [hmul, simdTailLoop_add fb wet dry inL inR w (c * w) pos (off : ℤ)
        bufL bufR outL outR, htail]
      have hcast : ((off + w : ℕ) : ℤ) = I1 := by rw [hI1]; push_cast; ring
      rw [hcast]

/-- A no-wrap run of the scalar loop equals the scalar-tail loop followed by
the single end-of-segment wrap test, provided the run cannot pass the edge
(`idx + t ≤ len`) and is nonempty. -/
theorem scalarLoop_eq_tail_wrap (len : ℤ) (fb wet dry : ℚ) (inL inR : List ℚ) :
    ∀ (t pos : ℕ) (idx : ℤ) (bufL bufR outL outR : List ℚ),
    1 ≤ t → 0 ≤ idx → idx + t ≤ len →
    scalarLoop len fb wet dry inL inR pos t bufL bufR idx outL outR =
      (let r := simdTailLoop fb wet dry inL inR t pos idx bufL bufR outL outR
       (r.1, r.2.1, if r.2.2.1 ≥ len then 0 else r.2.2.1, r.2.2.2.1, r.2.2.2.2)) := by
  intro t
  induction t with
  | zero => intro pos idx bufL bufR outL outR h1 _ _; omega
  | succ t ih =>
      intro pos idx bufL bufR outL outR h1 h2 h3
      rcases Nat.eq_zero_or_pos t with h0 | hpos
      · subst h0
        show (_, _, if idx + 1 ≥ len then 0 else idx + 1, _, _) = _
        rfl
      · have hlt : ¬ (idx + 1 ≥ len) := by omega
        show scalarLoop len fb wet dry inL inR (pos + 1) t _ _
          (if idx + 1 ≥ len then 0 else idx + 1) _ _ = _
        rw [if_neg hlt,
          ih (pos + 1) (idx + 1) _ _ _ _ hpos (by omega) (by push_cast at h3 ⊢; omega)]
        rfl

/-- Chunking of the scalar loop: `a + b` samples equal `a` samples then `b`
samples continued from the intermediate state. -/
theorem scalarLoop_add (len : ℤ) (fb wet dry : ℚ) (inL inR : List ℚ) :
    ∀ (a b pos : ℕ) (bufL bufR : List ℚ) (idx : ℤ) (outL outR : List ℚ),
    scalarLoop len fb wet dry inL inR pos (a + b) bufL bufR idx outL outR =
      (let r := scalarLoop len fb wet dry inL inR pos a bufL bufR idx outL outR
       scalarLoop len fb wet dry inL inR (pos + a) b r.1 r.2.1 r.2.2.1
         r.2.2.2.1 r.2.2.2.2) := by
  intro a
  induction a with
  | zero =>
      intro b pos bufL bufR idx outL outR
      rw [Nat.zero_add]
      rfl
  | succ a ih =>
      intro b pos bufL bufR idx outL outR
      have h1 : a + 1 + b = (a + b) + 1 := by omega
      rw [h1]
      show scalarLoop len fb wet dry inL inR (pos + 1) (a + b) _ _ _ _ _ = _
      rw [ih]
      have h2 : pos + 1 + a = pos + (a + 1) := by omega
      rw [h2]
      rfl

/-- Core equivalence: under the entry precondition `0 ≤ idx < len`, the SIMD
outer loop terminates within its lap budget and computes exactly the scalar
loop's result. -/
theorem simdOuterLoop_eq_scalar (w : ℕ) (len : ℤ) (fb wet dry : ℚ)
    (inL inR : List ℚ) (hw : 0 < w) :
    ∀ (fuel : ℕ) (rem : ℤ) (pos : ℕ) (idx : ℤ) (bufL bufR outL outR : List ℚ),
    0 ≤ idx → idx < len → 0 ≤ rem → rem ≤ fuel →
    simdOuterLoop w len fb wet dry inL inR fuel rem pos idx bufL bufR outL outR =
      some (scalarLoop len fb wet dry inL inR pos rem.toNat bufL bufR idx outL outR) := by
  intro fuel
  induction fuel with
  | zero =>
      intro rem pos idx bufL bufR outL outR h1 h2 h3 h4
      have h0 : rem = 0 := by omega
      subst h0
      simp [simdOuterLoop, scalarLoop]
  | succ fuel ih =>
      intro rem pos idx bufL bufR outL outR h1 h2 h3 h4
      rcases lt_or_ge 0 rem with hrem | hrem
      case inr =>
          have h0 : rem = 0 := by omega
          subst h0
          simp [simdOuterLoop, scalarLoop]
      case inl =>
          simp only [simdOuterLoop]
          rw [if_pos hrem]
          have hww : (0 : ℤ) < (w : ℤ) := by exact_mod_cast hw
          have hlen0 : 0 < len := by omega
          set e : ℤ := min rem (len - idx) with he
          have hE1 : 0 < e := lt_min hrem (by omega)
          have hE2 : e ≤ len - idx := min_le_right _ _
          have hE3 : e ≤ rem := min_le_left _ _
          set Q : ℤ := e.tdiv (w : ℤ) with hQ
          set R : ℤ := e.tmod (w : ℤ) with hR
          have hq0 : 0 ≤ Q := Int.tdiv_nonneg (le_of_lt hE1) (le_of_lt hww)
          have hr0 : 0 ≤ R := Int.tmod_nonneg _ (le_of_lt hE1)
          have hid : (w : ℤ) * Q + R = e := Int.tdiv_add_tmod e (w : ℤ)
          have hcastQ : ((Q.toNat * w : ℕ) : ℤ) = Q * (w : ℤ) := by
            push_cast [Int.toNat_of_nonneg hq0]
            ring
          have htot : Q.toNat * w + R.toNat = e.toNat := by
            have hz : ((Q.toNat * w + R.toNat : ℕ) : ℤ) = e := by
              push_cast [Int.toNat_of_nonneg hq0, Int.toNat_of_nonneg hr0]
              linarith [hid]
            have hzz := congrArg Int.toNat hz
            rw [Int.toNat_natCast] at hzz
            exact hzz
          -- rewrite the chunk loop as a tail-loop run
          have hchunk := simdChunkLoop_eq_tail w fb wet dry inL inR Q.toNat pos
            idx.toNat bufL bufR outL outR
          rw [Int.toNat_of_nonneg h1] at hchunk
          rcases hT1 : simdTailLoop fb wet dry inL inR (Q.toNat * w) pos idx
            bufL bufR outL outR with ⟨A1, A2, I1, A3, A4⟩
          rw [hT1] at hchunk
          dsimp only at hchunk
          have hI1 : I1 = idx + Q * (w : ℤ) := by
            have hx := simdTailLoop_idx fb wet dry inL inR (Q.toNat * w) pos idx
              bufL bufR outL outR
            rw [hT1] at hx
            dsimp only at hx
            rw [hx, hcastQ]
          -- fuse chunk part and tail part into one tail-loop run of e.toNat steps
          have htail2 := simdTailLoop_add fb wet dry inL inR (Q.toNat * w) R.toNat
            pos idx bufL bufR outL outR
          rw [htot, hT1] at htail2
          dsimp only at htail2
          -- relate to the scalar loop over the segment
          have hwrap := scalarLoop_eq_tail_wrap len fb wet dry inL inR e.toNat pos idx
            bufL bufR outL outR (by omega) h1 (by
              rw [Int.toNat_of_nonneg (le_of_lt hE1)]
              omega)
          rw [htail2] at hwrap
          dsimp only at hwrap
          rcases hS : scalarLoop len fb wet dry inL inR pos e.toNat bufL bufR idx
            outL outR with ⟨S1, S2, SI, S3, S4⟩
          rw [hS] at hwrap
          simp only [Prod.mk.injEq] at hwrap
          obtain ⟨e1, e2, e3, e4, e5⟩ := hwrap
          -- the index reached at the end of the segment
          have hT2idx : (simdTailLoop fb wet dry inL inR R.toNat (pos + Q.toNat * w)
              I1 A1 A2 A3 A4).2.2.1 = idx + e := by
            rw [simdTailLoop_idx, hI1, Int.toNat_of_nonneg hr0]
            linarith [hid]
          -- rewrite the goal's lap into the scalar segment state
          rw [hchunk]
          dsimp only
          rw [← hI1, ← e1, ← e2, ← e3, ← e4, ← e5]
          have hSI : SI = if idx + e ≥ len then 0 else idx + e := by
            rw [e3, hT2idx]
          have hSI0 : 0 ≤ SI := by
            rw [hSI]; split <;> omega
          have hSIlt : SI < len := by
            rw [hSI]; split <;> omega
          rw [ih (rem - e) (pos + Q.toNat * w + R.toNat) SI S1 S2 S3 S4 hSI0 hSIlt
            (by omega) (by omega)]
          have hpos : pos + Q.toNat * w + R.toNat = pos + e.toNat := by
            rw [Nat.add_assoc, htot]
          have hrem' : rem.toNat = e.toNat + (rem - e).toNat := by omega
          rw [hpos, hrem', scalarLoop_add len fb wet dry inL inR e.toNat
            ((rem - e).toNat) pos bufL bufR idx outL outR, hS]


/-- **C2 (counterexample)**: the claim as stated — path equivalence for
*every* prepared engine state — fails when the cursor is at or beyond
`delaySamples`.  On `badState` with a one-sample block, the scalar path
writes one output sample (leaving `[0, 7, 7]`), while the SIMD path's first
lap computes `samplesToEdge = min(1, 3 - 5) = -2`, inflates
`samplesRemaining` to `3`, rewinds the cursor and then writes three samples
(`[0, 0, 0]`): the two paths disagree. -/
theorem c2_counterexample :
    processBlockSIMD 4 badState [0, 0, 0] [0, 0, 0] [7, 7, 7] [7, 7, 7] 1 ≠
      some (processBlockScalar badState [0, 0, 0] [0, 0, 0] [7, 7, 7] [7, 7, 7] 1) := by
  have h1 : ((-2 : ℤ)).tdiv 4 = 0 := by decide
  have h2 : ((-2 : ℤ)).tmod 4 = -2 := by decide
  have h3 : ((3 : ℤ)).tdiv 4 = 0 := by decide
  have h4 : ((3 : ℤ)).tmod 4 = 3 := by decide
  have h5 : ((-2 : ℤ)).toNat = 0 := by decide
  have h6 : ((3 : ℤ)).toNat = 3 := by decide
  have h7 : ((5 : ℤ)).toNat = 5 := by decide
  have h8 : ((0 : ℤ)).toNat = 0 := by decide
  norm_num [processBlockSIMD, processBlockScalar, simdOuterLoop, simdChunkLoop,
    simdTailLoop, simdFuel, scalarLoop, jlimit, badState, loadVec, storeVec,
    getD_cons_zero, getD_cons_succ, getD_nil, getD_replicate_zero,
    set_replicate_zero, List.getD, List.replicate, h1, h2, h3, h4, h5, h6, h7, h8]

/-- Path agreement under the cursor precondition, shared by C2 and C10. -/
theorem simd_scalar_agree (w : ℕ) (s : SharcDelayLine)
    (inL inR outL outR : List ℚ) (n : ℕ) (hw : 0 < w)
    (hprep : s.prepared = true) (h0 : 0 ≤ s.delayIndex)
    (h1 : s.delayIndex < s.delaySamples) :
    processBlockSIMD w s inL inR outL outR n =
      some (processBlockScalar s inL inR outL outR n) := by
  unfold processBlockSIMD processBlockScalar
  rw [if_neg (by simp [hprep]), if_neg (by simp [hprep])]
  rw [simdOuterLoop_eq_scalar w s.delaySamples s.feedback s.wetMix s.dryMix inL inR hw
    (simdFuel s n) (n : ℤ) 0 s.delayIndex s.delayLineLeft s.delayLineRight outL outR
    h0 h1 (Int.natCast_nonneg n) (by unfold simdFuel; push_cast; omega)]
  rw [Int.toNat_natCast]

/-- **C2 (amended)**: for every prepared engine state additionally satisfying
the cursor precondition `0 ≤ delayIndex < delaySamples` (cf. C10), identical
parameters and identical input block, `processBlockScalar` and
`processBlockSIMD` produce exactly the same outputs, buffer contents and
final cursor — lane-for-lane identical arithmetic in this exact-arithmetic
embedding — for every vector width `w > 0` and block size (covering blocks
smaller than, equal to, and larger than `w`, and delay lengths on either side
of `w`). -/
theorem c2_simd_matches_scalar (w : ℕ) (s : SharcDelayLine)
    (inL inR outL outR : List ℚ) (n : ℕ) (hw : 0 < w)
    (hprep : s.prepared = true) (h0 : 0 ≤ s.delayIndex)
    (h1 : s.delayIndex < s.delaySamples) :
    processBlockSIMD w s inL inR outL outR n =
      some (processBlockScalar s inL inR outL outR n) :=
  simd_scalar_agree w s inL inR outL outR n hw hprep h0 h1

/-- **C2 (witness)**: path equality at a concrete prepared engine with
`delaySamples = 3 < w = 4` and a 6-sample block (`> w`). -/
theorem c2_witness :
    (0 < 4) ∧ wState.prepared = true ∧ 0 ≤ wState.delayIndex ∧
      wState.delayIndex < wState.delaySamples ∧
      processBlockSIMD 4 wState [1, 1/2, 1/4, 1/8, 1/16, 1/32]
          [1, 1/2, 1/4, 1/8, 1/16, 1/32] [0, 0, 0, 0, 0, 0] [0, 0, 0, 0, 0, 0] 6 =
        some (processBlockScalar wState [1, 1/2, 1/4, 1/8, 1/16, 1/32]
          [1, 1/2, 1/4, 1/8, 1/16, 1/32] [0, 0, 0, 0, 0, 0] [0, 0, 0, 0, 0, 0] 6) :=
  ⟨by decide, rfl, by decide, by decide,
    c2_simd_matches_scalar 4 wState [1, 1/2, 1/4, 1/8, 1/16, 1/32]
      [1, 1/2, 1/4, 1/8, 1/16, 1/32] [0, 0, 0, 0, 0, 0] [0, 0, 0, 0, 0, 0] 6
      (by decide) rfl (by decide) (by decide)⟩

/-! ### Claim C6: chunking associativity of the scalar path -/

/-- Output-pointer shift: running the scalar loop with output position offset
`a` over the full arrays equals running it at offset `j` over the arrays with
the first `a` entries split off (C++ passes `out + a` into a follow-up call). -/
theorem scalarLoop_shift (len : ℤ) (fb wet dry : ℚ) (inL inR : List ℚ) (a : ℕ) :
    ∀ (k j : ℕ) (bufL bufR : List ℚ) (idx : ℤ) (outL outR : List ℚ),
    scalarLoop len fb wet dry inL inR (a + j) k bufL bufR idx outL outR =
      (let r := scalarLoop len fb wet dry (inL.drop a) (inR.drop a) j k bufL bufR idx
        (outL.drop a) (outR.drop a)
       (r.1, r.2.1, r.2.2.1, outL.take a ++ r.2.2.2.1, outR.take a ++ r.2.2.2.2)) := by
  intro k
  induction k with
  | zero =>
      intro j bufL bufR idx outL outR
      show (bufL, bufR, idx, outL, outR) =
        (bufL, bufR, idx, outL.take a ++ outL.drop a, outR.take a ++ outR.drop a)
      rw [List.take_append_drop, List.take_append_drop]
  | succ k ih =>
      intro j bufL bufR idx outL outR
      have hjj : a + j + 1 = a + (j + 1) := by omega
      show scalarLoop len fb wet dry inL inR (a + j + 1) k _ _ _ _ _ = _
      rw [hjj, ih (j + 1), drop_set outL a j, drop_set outR a j,
        take_set outL a (a + j) _ (by omega), take_set outR a (a + j) _ (by omega),
        ← getD_drop inL a j, ← getD_drop inR a j]
      rfl

/-- Unfolding of `processBlockScalar` on a prepared engine. -/
theorem processBlockScalar_prepared (s : SharcDelayLine)
    (inL inR outL outR : List ℚ) (n : ℕ) (h : s.prepared = true) :
    processBlockScalar s inL inR outL outR n =
      (let r := scalarLoop s.delaySamples s.feedback s.wetMix s.dryMix inL inR 0 n
        s.delayLineLeft s.delayLineRight s.delayIndex outL outR
       ({ s with delayLineLeft := r.1, delayLineRight := r.2.1,
                 delayIndex := r.2.2.1 },
        r.2.2.2.1, r.2.2.2.2)) := by
  unfold processBlockScalar
  rw [if_neg (by simp [h])]

/-- Processing never touches the `prepared` flag. -/
theorem processBlockScalar_preserves_prepared (s : SharcDelayLine)
    (inL inR outL outR : List ℚ) (n : ℕ) :
    (processBlockScalar s inL inR outL outR n).1.prepared = s.prepared := by
  unfold processBlockScalar
  split <;> rfl

/-- Binary split of a scalar block call: `a + b` samples in one call equal a
call of `a` samples followed by a call of `b` samples on the advanced i/o
pointers, stitched back together. -/
theorem processBlockScalar_split (s : SharcDelayLine) (inL inR outL outR : List ℚ)
    (a b : ℕ) (h : s.prepared = true) :
    processBlockScalar s inL inR outL outR (a + b) =
      (let r1 := processBlockScalar s inL inR outL outR a
       let r2 := processBlockScalar r1.1 (inL.drop a) (inR.drop a)
         (r1.2.1.drop a) (r1.2.2.drop a) b
       (r2.1, r1.2.1.take a ++ r2.2.1, r1.2.2.take a ++ r2.2.2)) := by
  rcases hL : scalarLoop s.delaySamples s.feedback s.wetMix s.dryMix inL inR 0 a
    s.delayLineLeft s.delayLineRight s.delayIndex outL outR with ⟨B1, B2, I, O1, O2⟩
  rw [processBlockScalar_prepared s inL inR outL outR (a + b) h,
    processBlockScalar_prepared s inL inR outL outR a h, hL]
  dsimp only
  rw [processBlockScalar_prepared
    ({ s with delayLineLeft := B1, delayLineRight := B2, delayIndex := I })
    (inL.drop a) (inR.drop a) (O1.drop a) (O2.drop a) b h]
  dsimp only
  rw [scalarLoop_add s.delaySamples s.feedback s.wetMix s.dryMix inL inR a b 0
    s.delayLineLeft s.delayLineRight s.delayIndex outL outR, hL]
  dsimp only
  rw [Nat.zero_add]
  have hsh := scalarLoop_shift s.delaySamples s.feedback s.wetMix s.dryMix inL inR a b
    0 B1 B2 I O1 O2
  simp only [Nat.add_zero] at hsh
  rw [hsh]


/-- **C6**: for every prepared engine with fixed parameters, processing
`cs.sum` samples in one `processBlockScalar` call produces the same outputs
and the same final engine state (buffers and cursor) as splitting the block
into any number of consecutive calls of sizes `cs` — in particular for totals
spanning multiple multiples of `delaySamples`. -/
theorem c6_chunking_associativity (s : SharcDelayLine)
    (inL inR outL outR : List ℚ) (cs : List ℕ) (h : s.prepared = true) :
    processBlockScalar s inL inR outL outR cs.sum =
      runCalls cs s inL inR outL outR := by
  induction cs generalizing s inL inR outL outR with
  | nil =>
      show processBlockScalar s inL inR outL outR 0 = (s, outL, outR)
      unfold processBlockScalar
      rw [if_neg (by simp [h])]
      rfl
  | cons c cs ih =>
      show processBlockScalar s inL inR outL outR (c + cs.sum) = _
      rw [processBlockScalar_split s inL inR outL outR c cs.sum h]
      show _ = (let r := processBlockScalar s inL inR outL outR c
                let r2 := runCalls cs r.1 (inL.drop c) (inR.drop c)
                  (r.2.1.drop c) (r.2.2.drop c)
                (r2.1, r.2.1.take c ++ r2.2.1, r.2.2.take c ++ r2.2.2))
      rcases hr : processBlockScalar s inL inR outL outR c with ⟨s1, o1L, o1R⟩
      dsimp only
      have hp : s1.prepared = true := by
        have h2 := processBlockScalar_preserves_prepared s inL inR outL outR c
        rw [hr] at h2
        exact h2.trans h
      rw [ih s1 (inL.drop c) (inR.drop c) (o1L.drop c) (o1R.drop c) hp]

/-- **C6 (witness)**: the split `[2, 1]` versus one 3-sample call on a
concrete prepared engine. -/
theorem c6_witness :
    wState.prepared = true ∧
      processBlockScalar wState [1, 1/2, 1/4] [1, 1/2, 1/4] [0, 0, 0] [0, 0, 0]
          ([2, 1] : List ℕ).sum =
        runCalls [2, 1] wState [1, 1/2, 1/4] [1, 1/2, 1/4] [0, 0, 0] [0, 0, 0] :=
  ⟨rfl, c6_chunking_associativity wState [1, 1/2, 1/4] [1, 1/2, 1/4] [0, 0, 0] [0, 0, 0]
    [2, 1] rfl⟩

/-! ### Claim C3: the hard clip keeps the delay buffers in `[-1, 1]` -/

theorem bounded_set (l : List ℚ) (i : ℕ) (v : ℚ) (hv : -1 ≤ v ∧ v ≤ 1)
    (hl : ∀ x ∈ l, -1 ≤ x ∧ x ≤ 1) : ∀ x ∈ l.set i v, -1 ≤ x ∧ x ≤ 1 := by
  intro x hx
  rcases List.mem_or_eq_of_mem_set hx with h | h
  · exact hl x h
  · rw [h]; exact hv

theorem scalarLoop_bounded (len : ℤ) (fb wet dry : ℚ) (inL inR : List ℚ) :
    ∀ (k i : ℕ) (bufL bufR : List ℚ) (idx : ℤ) (outL outR : List ℚ),
    (∀ x ∈ bufL, -1 ≤ x ∧ x ≤ 1) → (∀ x ∈ bufR, -1 ≤ x ∧ x ≤ 1) →
    (∀ x ∈ (scalarLoop len fb wet dry inL inR i k bufL bufR idx outL outR).1,
      -1 ≤ x ∧ x ≤ 1) ∧
    (∀ x ∈ (scalarLoop len fb wet dry inL inR i k bufL bufR idx outL outR).2.1,
      -1 ≤ x ∧ x ≤ 1) := by
  intro k
  induction k with
  | zero => intro i bufL bufR idx outL outR hL hR; exact ⟨hL, hR⟩
  | succ k ih =>
      intro i bufL bufR idx outL outR hL hR
      exact ih (i + 1) _ _ _ _ _
        (bounded_set _ _ _ (jlimit_mem _) hL) (bounded_set _ _ _ (jlimit_mem _) hR)

theorem simdTailLoop_bounded (fb wet dry : ℚ) (inL inR : List ℚ) :
    ∀ (t pos : ℕ) (idx : ℤ) (bufL bufR outL outR : List ℚ),
    (∀ x ∈ bufL, -1 ≤ x ∧ x ≤ 1) → (∀ x ∈ bufR, -1 ≤ x ∧ x ≤ 1) →
    (∀ x ∈ (simdTailLoop fb wet dry inL inR t pos idx bufL bufR outL outR).1,
      -1 ≤ x ∧ x ≤ 1) ∧
    (∀ x ∈ (simdTailLoop fb wet dry inL inR t pos idx bufL bufR outL outR).2.1,
      -1 ≤ x ∧ x ≤ 1) := by
  intro t
  induction t with
  | zero => intro pos idx bufL bufR outL outR hL hR; exact ⟨hL, hR⟩
  | succ t ih =>
      intro pos idx bufL bufR outL outR hL hR
      exact ih (pos + 1) _ _ _ _ _
        (bounded_set _ _ _ (jlimit_mem _) hL) (bounded_set _ _ _ (jlimit_mem _) hR)

theorem simdOuterLoop_bounded (w : ℕ) (len : ℤ) (fb wet dry : ℚ) (inL inR : List ℚ) :
    ∀ (fuel : ℕ) (rem : ℤ) (pos : ℕ) (idx : ℤ) (bufL bufR outL outR : List ℚ)
      (res : List ℚ × List ℚ × ℤ × List ℚ × List ℚ),
    (∀ x ∈ bufL, -1 ≤ x ∧ x ≤ 1) → (∀ x ∈ bufR, -1 ≤ x ∧ x ≤ 1) →
    simdOuterLoop w len fb wet dry inL inR fuel rem pos idx bufL bufR outL outR =
      some res →
    (∀ x ∈ res.1, -1 ≤ x ∧ x ≤ 1) ∧ (∀ x ∈ res.2.1, -1 ≤ x ∧ x ≤ 1) := by
  intro fuel
  induction fuel with
  | zero =>
      intro rem pos idx bufL bufR outL outR res hL hR hres
      by_cases h : 0 < rem
      · rw [simdOuterLoop, if_pos h] at hres
        exact absurd hres (by simp)
      · rw [simdOuterLoop, if_neg h] at hres
        obtain rfl := Option.some.injEq _ _ ▸ hres
        cases Option.some.inj hres
        exact ⟨hL, hR⟩
  | succ fuel ih =>
      intro rem pos idx bufL bufR outL outR res hL hR hres
      by_cases h : 0 < rem
      · simp only [simdOuterLoop] at hres
        rw [if_pos h] at hres
        have hc := simdChunkLoop_eq_tail w fb wet dry inL inR
          ((min rem (len - idx)).tdiv (w : ℤ)).toNat pos idx.toNat bufL bufR outL outR
        rcases hT1 : simdTailLoop fb wet dry inL inR
            ((((min rem (len - idx)).tdiv (w : ℤ)).toNat) * w) pos
            ((idx.toNat : ℕ) : ℤ) bufL bufR outL outR with ⟨A1, A2, I1, A3, A4⟩
        rw [hT1] at hc
        dsimp only at hc
        have hA := simdTailLoop_bounded fb wet dry inL inR
          ((((min rem (len - idx)).tdiv (w : ℤ)).toNat) * w) pos
          ((idx.toNat : ℕ) : ℤ) bufL bufR outL outR hL hR
        rw [hT1] at hA
        dsimp only at hA
        rw [hc] at hres
        dsimp only at hres
        have hB := simdTailLoop_bounded fb wet dry inL inR
          (((min rem (len - idx)).tmod (w : ℤ)).toNat)
          (pos + ((min rem (len - idx)).tdiv (w : ℤ)).toNat * w)
          (idx + ((min rem (len - idx)).tdiv (w : ℤ)) * (w : ℤ)) A1 A2 A3 A4 hA.1 hA.2
        exact ih _ _ _ _ _ _ _ _ hB.1 hB.2 hres
      · rw [simdOuterLoop, if_neg h] at hres
        cases Option.some.inj hres
        exact ⟨hL, hR⟩

/-- **C3**: every value the clip stores is in `[-1, 1]`, and consequently, for
any engine whose buffers are currently bounded in `[-1, 1]` (in particular a
reset, zeroed engine), any input sequence bounded in `[-1, 1]` and any
feedback in `[0, 0.99]`, both processing paths leave every element of
`bufferLeft` and `bufferRight` in `[-1, 1]`; the invariant therefore holds
after every sample write, for all time (block after block). -/
theorem c3_clip_invariant (w : ℕ) (s : SharcDelayLine)
    (inL inR outL outR : List ℚ) (n : ℕ)
    (hL : ∀ x ∈ s.delayLineLeft, -1 ≤ x ∧ x ≤ 1)
    (hR : ∀ x ∈ s.delayLineRight, -1 ≤ x ∧ x ≤ 1)
    (_hinL : ∀ x ∈ inL, -1 ≤ x ∧ x ≤ 1) (_hinR : ∀ x ∈ inR, -1 ≤ x ∧ x ≤ 1)
    (_hfb0 : 0 ≤ s.feedback) (_hfb1 : s.feedback ≤ 99/100) :
    (∀ v : ℚ, -1 ≤ jlimit (-1) 1 v ∧ jlimit (-1) 1 v ≤ 1) ∧
    ((∀ x ∈ (processBlockScalar s inL inR outL outR n).1.delayLineLeft,
        -1 ≤ x ∧ x ≤ 1) ∧
      (∀ x ∈ (processBlockScalar s inL inR outL outR n).1.delayLineRight,
        -1 ≤ x ∧ x ≤ 1)) ∧
    (∀ r, processBlockSIMD w s inL inR outL outR n = some r →
      (∀ x ∈ r.1.delayLineLeft, -1 ≤ x ∧ x ≤ 1) ∧
      (∀ x ∈ r.1.delayLineRight, -1 ≤ x ∧ x ≤ 1)) := by
  refine ⟨fun v => jlimit_mem v, ?_, ?_⟩
  · unfold processBlockScalar
    by_cases hp : s.prepared = false
    · rw [if_pos hp]
      exact ⟨hL, hR⟩
    · rw [if_neg hp]
      exact scalarLoop_bounded s.delaySamples s.feedback s.wetMix s.dryMix inL inR n 0
        s.delayLineLeft s.delayLineRight s.delayIndex outL outR hL hR
  · intro r hr
    unfold processBlockSIMD at hr
    by_cases hp : s.prepared = false
    · rw [if_pos hp] at hr
      cases Option.some.inj hr
      exact ⟨hL, hR⟩
    · rw [if_neg hp] at hr
      cases heq : simdOuterLoop w s.delaySamples s.feedback s.wetMix s.dryMix inL inR
          (simdFuel s n) (n : ℤ) 0 s.delayIndex s.delayLineLeft s.delayLineRight
          outL outR with
      | none => rw [heq] at hr; exact absurd hr (by simp)
      | some res =>
          rw [heq] at hr
          cases Option.some.inj hr
          exact simdOuterLoop_bounded w s.delaySamples s.feedback s.wetMix s.dryMix
            inL inR (simdFuel s n) (n : ℤ) 0 s.delayIndex s.delayLineLeft
            s.delayLineRight outL outR res hL hR heq

/-- **C3 (witness)**: the invariant at a concrete reset (zeroed) engine with
in-range feedback and a bounded two-sample input block. -/
theorem c3_witness :
    (∀ x ∈ wState.delayLineLeft, -1 ≤ x ∧ x ≤ 1) ∧
      (0 ≤ wState.feedback ∧ wState.feedback ≤ 99/100) ∧
      ((∀ x ∈ (processBlockScalar wState [1, -1/2] [1, -1/2] [0, 0] [0, 0] 2).1.delayLineLeft,
          -1 ≤ x ∧ x ≤ 1) ∧
        (∀ x ∈ (processBlockScalar wState [1, -1/2] [1, -1/2] [0, 0] [0, 0] 2).1.delayLineRight,
          -1 ≤ x ∧ x ≤ 1)) ∧
      (∀ r, processBlockSIMD 4 wState [1, -1/2] [1, -1/2] [0, 0] [0, 0] 2 = some r →
        (∀ x ∈ r.1.delayLineLeft, -1 ≤ x ∧ x ≤ 1) ∧
        (∀ x ∈ r.1.delayLineRight, -1 ≤ x ∧ x ≤ 1)) := by
  have hbuf : ∀ x ∈ wState.delayLineLeft, -1 ≤ x ∧ x ≤ (1 : ℚ) := by
    intro x hx
    have hx2 : x ∈ List.replicate 5 (0 : ℚ) := hx
    rw [List.eq_of_mem_replicate hx2]
    norm_num
  have hin : ∀ x ∈ ([1, -1/2] : List ℚ), -1 ≤ x ∧ x ≤ 1 := by
    intro x hx
    simp only [List.mem_cons, List.not_mem_nil, or_false] at hx
    rcases hx with h | h <;> rw [h] <;> norm_num
  have h3 := c3_clip_invariant 4 wState [1, -1/2] [1, -1/2] [0, 0] [0, 0] 2
    hbuf hbuf hin hin (by norm_num [wState]) (by norm_num [wState])
  exact ⟨hbuf, ⟨by norm_num [wState], by norm_num [wState]⟩, h3.2.1, h3.2.2⟩

/-! ### Claim C7: impulse response decays like feedback^k -/

theorem scalarLoop_out_length (len : ℤ) (fb wet dry : ℚ) (inL inR : List ℚ) :
    ∀ (k i : ℕ) (bufL bufR : List ℚ) (idx : ℤ) (outL outR : List ℚ),
    (scalarLoop len fb wet dry inL inR i k bufL bufR idx outL outR).2.2.2.1.length =
      outL.length ∧
    (scalarLoop len fb wet dry inL inR i k bufL bufR idx outL outR).2.2.2.2.length =
      outR.length := by
  intro k
  induction k with
  | zero => intro i bufL bufR idx outL outR; exact ⟨rfl, rfl⟩
  | succ k ih =>
      intro i bufL bufR idx outL outR
      have h := ih (i + 1)
        (bufL.set idx.toNat (jlimit (-1) 1 (inL.getD i 0 + fb * bufL.getD idx.toNat 0)))
        (bufR.set idx.toNat (jlimit (-1) 1 (inR.getD i 0 + fb * bufR.getD idx.toNat 0)))
        (if idx + 1 ≥ len then 0 else idx + 1)
        (outL.set i (inL.getD i 0 * dry + bufL.getD idx.toNat 0 * wet))
        (outR.set i (inR.getD i 0 * dry + bufR.getD idx.toNat 0 * wet))
      rw [List.length_set, List.length_set] at h
      exact h

theorem scalarLoop_out_lo (len : ℤ) (fb wet dry : ℚ) (inL inR : List ℚ) :
    ∀ (k i q : ℕ) (bufL bufR : List ℚ) (idx : ℤ) (outL outR : List ℚ), q < i →
    (scalarLoop len fb wet dry inL inR i k bufL bufR idx outL outR).2.2.2.1.getD q 0 =
      outL.getD q 0 ∧
    (scalarLoop len fb wet dry inL inR i k bufL bufR idx outL outR).2.2.2.2.getD q 0 =
      outR.getD q 0 := by
  intro k
  induction k with
  | zero => intro i q bufL bufR idx outL outR _; exact ⟨rfl, rfl⟩
  | succ k ih =>
      intro i q bufL bufR idx outL outR hq
      have h := ih (i + 1) q
        (bufL.set idx.toNat (jlimit (-1) 1 (inL.getD i 0 + fb * bufL.getD idx.toNat 0)))
        (bufR.set idx.toNat (jlimit (-1) 1 (inR.getD i 0 + fb * bufR.getD idx.toNat 0)))
        (if idx + 1 ≥ len then 0 else idx + 1)
        (outL.set i (inL.getD i 0 * dry + bufL.getD idx.toNat 0 * wet))
        (outR.set i (inR.getD i 0 * dry + bufR.getD idx.toNat 0 * wet))
        (by omega)
      rw [getD_set_ne _ _ _ _ _ (by omega), getD_set_ne _ _ _ _ _ (by omega)] at h
      exact h

theorem scalarLoop_out_hi (len : ℤ) (fb wet dry : ℚ) (inL inR : List ℚ) :
    ∀ (k i q : ℕ) (bufL bufR : List ℚ) (idx : ℤ) (outL outR : List ℚ), i + k ≤ q →
    (scalarLoop len fb wet dry inL inR i k bufL bufR idx outL outR).2.2.2.1.getD q 0 =
      outL.getD q 0 ∧
    (scalarLoop len fb wet dry inL inR i k bufL bufR idx outL outR).2.2.2.2.getD q 0 =
      outR.getD q 0 := by
  intro k
  induction k with
  | zero => intro i q bufL bufR idx outL outR _; exact ⟨rfl, rfl⟩
  | succ k ih =>
      intro i q bufL bufR idx outL outR hq
      have h := ih (i + 1) q
        (bufL.set idx.toNat (jlimit (-1) 1 (inL.getD i 0 + fb * bufL.getD idx.toNat 0)))
        (bufR.set idx.toNat (jlimit (-1) 1 (inR.getD i 0 + fb * bufR.getD idx.toNat 0)))
        (if idx + 1 ≥ len then 0 else idx + 1)
        (outL.set i (inL.getD i 0 * dry + bufL.getD idx.toNat 0 * wet))
        (outR.set i (inR.getD i 0 * dry + bufR.getD idx.toNat 0 * wet))
        (by omega)
      rw [getD_set_ne _ _ _ _ _ (by omega), getD_set_ne _ _ _ _ _ (by omega)] at h
      exact h

/-- Running the scalar loop over silent input with a buffer that is zero
except at position `0`, starting at a cursor `idx ≥ 1`, leaves both buffers
unchanged and moves the cursor to `idx + t` (wrapping at the end). -/
theorem scalarLoop_silent_run (len : ℤ) (fb wet dry : ℚ) (inL inR : List ℚ)
    (M : ℕ) (b b2 : ℚ) :
    ∀ (t pos : ℕ) (idx : ℤ) (outL outR : List ℚ),
    1 ≤ t → 1 ≤ idx → idx + t ≤ len →
    (∀ j, pos ≤ j → inL.getD j 0 = 0) → (∀ j, pos ≤ j → inR.getD j 0 = 0) →
    (scalarLoop len fb wet dry inL inR pos t ((List.replicate M 0).set 0 b)
        ((List.replicate M 0).set 0 b2) idx outL outR).1 =
      (List.replicate M 0).set 0 b ∧
    (scalarLoop len fb wet dry inL inR pos t ((List.replicate M 0).set 0 b)
        ((List.replicate M 0).set 0 b2) idx outL outR).2.1 =
      (List.replicate M 0).set 0 b2 ∧
    (scalarLoop len fb wet dry inL inR pos t ((List.replicate M 0).set 0 b)
        ((List.replicate M 0).set 0 b2) idx outL outR).2.2.1 =
      (if idx + t ≥ len then 0 else idx + t) := by
  have hjl0 : jlimit (-1) 1 (0 : ℚ) = 0 := jlimit_id 0 (by norm_num) (by norm_num)
  intro t
  induction t with
  | zero => intro pos idx outL outR h1 _ _ _ _; omega
  | succ t ih =>
      intro pos idx outL outR h1 h2 h3 hinL hinR
      have hidx1 : 1 ≤ idx.toNat := by omega
      have hbl : ((List.replicate M 0).set 0 b).set idx.toNat
          (jlimit (-1) 1 (inL.getD pos 0 +
            fb * ((List.replicate M 0).set 0 b).getD idx.toNat 0)) =
          (List.replicate M 0).set 0 b := by
        rw [hinL pos (le_refl pos), getD_set_zero_tail M b idx.toNat hidx1,
          mul_zero, add_zero, hjl0, set_zero_tail M b idx.toNat hidx1]
      have hbr : ((List.replicate M 0).set 0 b2).set idx.toNat
          (jlimit (-1) 1 (inR.getD pos 0 +
            fb * ((List.replicate M 0).set 0 b2).getD idx.toNat 0)) =
          (List.replicate M 0).set 0 b2 := by
        rw [hinR pos (le_refl pos), getD_set_zero_tail M b2 idx.toNat hidx1,
          mul_zero, add_zero, hjl0, set_zero_tail M b2 idx.toNat hidx1]
      have hstep : scalarLoop len fb wet dry inL inR pos (t + 1)
          ((List.replicate M 0).set 0 b) ((List.replicate M 0).set 0 b2) idx outL outR =
          scalarLoop len fb wet dry inL inR (pos + 1) t
            ((List.replicate M 0).set 0 b) ((List.replicate M 0).set 0 b2)
            (if idx + 1 ≥ len then 0 else idx + 1)
            (outL.set pos (inL.getD pos 0 * dry +
              ((List.replicate M 0).set 0 b).getD idx.toNat 0 * wet))
            (outR.set pos (inR.getD pos 0 * dry +
              ((List.replicate M 0).set 0 b2).getD idx.toNat 0 * wet)) := by
        show scalarLoop len fb wet dry inL inR (pos + 1) t _ _ _ _ _ = _
        rw [hbl, hbr]
      rcases Nat.eq_zero_or_pos t with h0 | hpos
      · subst h0
        rw [hstep]
        refine ⟨rfl, rfl, ?_⟩
        show (if idx + 1 ≥ len then (0 : ℤ) else idx + 1) = _
        have : idx + ((1 : ℕ) : ℤ) = idx + 1 := by push_cast; ring
        rw [this]
      · have hnw : ¬ (idx + 1 ≥ len) := by omega
        rw [hstep, if_neg hnw]
        have hrec := ih (pos + 1) (idx + 1)
          (outL.set pos (inL.getD pos 0 * dry +
            ((List.replicate M 0).set 0 b).getD idx.toNat 0 * wet))
          (outR.set pos (inR.getD pos 0 * dry +
            ((List.replicate M 0).set 0 b2).getD idx.toNat 0 * wet))
          hpos (by omega) (by push_cast at h3 ⊢; omega)
          (fun j hj => hinL j (by omega)) (fun j hj => hinR j (by omega))
        refine ⟨hrec.1, hrec.2.1, ?_⟩
        rw [hrec.2.2]
        have harg : idx + 1 + (t : ℤ) = idx + ((t + 1 : ℕ) : ℤ) := by push_cast; ring
        rw [harg]

/-- One full delay period of the scalar loop, starting at cursor `0` with
buffers that are zero except at position `0`: the recurrence value (in range
by hypothesis, so the clip is the identity) is stored at position `0`, the
rest of the buffer writes re-store zeros, and the cursor wraps back to `0`. -/
theorem scalarLoop_period (fb wet dry : ℚ) (inL inR : List ℚ) (M D : ℕ)
    (hD : 1 ≤ D) (hM : 1 ≤ M) :
    ∀ (pos : ℕ) (c c2 : ℚ) (outL outR : List ℚ),
    (∀ j, pos + 1 ≤ j → inL.getD j 0 = 0) → (∀ j, pos + 1 ≤ j → inR.getD j 0 = 0) →
    -1 ≤ inL.getD pos 0 + fb * c → inL.getD pos 0 + fb * c ≤ 1 →
    -1 ≤ inR.getD pos 0 + fb * c2 → inR.getD pos 0 + fb * c2 ≤ 1 →
    (scalarLoop (D : ℤ) fb wet dry inL inR pos D ((List.replicate M 0).set 0 c)
        ((List.replicate M 0).set 0 c2) 0 outL outR).1 =
      (List.replicate M 0).set 0 (inL.getD pos 0 + fb * c) ∧
    (scalarLoop (D : ℤ) fb wet dry inL inR pos D ((List.replicate M 0).set 0 c)
        ((List.replicate M 0).set 0 c2) 0 outL outR).2.1 =
      (List.replicate M 0).set 0 (inR.getD pos 0 + fb * c2) ∧
    (scalarLoop (D : ℤ) fb wet dry inL inR pos D ((List.replicate M 0).set 0 c)
        ((List.replicate M 0).set 0 c2) 0 outL outR).2.2.1 = 0 := by
  intro pos c c2 outL outR hsL hsR hL1 hL2 hR1 hR2
  obtain ⟨t, rfl⟩ : ∃ t, D = t + 1 := ⟨D - 1, by omega⟩
  have hbl : ((List.replicate M 0).set 0 c).set ((0 : ℤ)).toNat
      (jlimit (-1) 1 (inL.getD pos 0 +
        fb * ((List.replicate M 0).set 0 c).getD ((0 : ℤ)).toNat 0)) =
      (List.replicate M 0).set 0 (inL.getD pos 0 + fb * c) := by
    rw [Int.toNat_zero, getD_set_zero_head M c hM, jlimit_id _ hL1 hL2, List.set_set]
  have hbr : ((List.replicate M 0).set 0 c2).set ((0 : ℤ)).toNat
      (jlimit (-1) 1 (inR.getD pos 0 +
        fb * ((List.replicate M 0).set 0 c2).getD ((0 : ℤ)).toNat 0)) =
      (List.replicate M 0).set 0 (inR.getD pos 0 + fb * c2) := by
    rw [Int.toNat_zero, getD_set_zero_head M c2 hM, jlimit_id _ hR1 hR2, List.set_set]
  have hstep : scalarLoop ((t + 1 : ℕ) : ℤ) fb wet dry inL inR pos (t + 1)
      ((List.replicate M 0).set 0 c) ((List.replicate M 0).set 0 c2) 0 outL outR =
      scalarLoop ((t + 1 : ℕ) : ℤ) fb wet dry inL inR (pos + 1) t
        ((List.replicate M 0).set 0 (inL.getD pos 0 + fb * c))
        ((List.replicate M 0).set 0 (inR.getD pos 0 + fb * c2))
        (if (0 : ℤ) + 1 ≥ ((t + 1 : ℕ) : ℤ) then 0 else 0 + 1)
        (outL.set pos (inL.getD pos 0 * dry +
          ((List.replicate M 0).set 0 c).getD ((0 : ℤ)).toNat 0 * wet))
        (outR.set pos (inR.getD pos 0 * dry +
          ((List.replicate M 0).set 0 c2).getD ((0 : ℤ)).toNat 0 * wet)) := by
    show scalarLoop ((t + 1 : ℕ) : ℤ) fb wet dry inL inR (pos + 1) t _ _ _ _ _ = _
    rw [hbl, hbr]
  rcases Nat.eq_zero_or_pos t with h0 | hpos
  · subst h0
    rw [hstep, if_pos (by omega)]
    exact ⟨rfl, rfl, rfl⟩
  · rw [hstep, if_neg (by omega)]
    have hrun := scalarLoop_silent_run ((t + 1 : ℕ) : ℤ) fb wet dry inL inR M
      (inL.getD pos 0 + fb * c) (inR.getD pos 0 + fb * c2) t (pos + 1) (0 + 1)
      (outL.set pos (inL.getD pos 0 * dry +
        ((List.replicate M 0).set 0 c).getD ((0 : ℤ)).toNat 0 * wet))
      (outR.set pos (inR.getD pos 0 * dry +
        ((List.replicate M 0).set 0 c2).getD ((0 : ℤ)).toNat 0 * wet))
      hpos (by omega) (by push_cast; omega)
      (fun j hj => hsL j (by omega)) (fun j hj => hsR j (by omega))
    refine ⟨hrun.1, hrun.2.1, ?_⟩
    rw [hrun.2.2, if_pos (by push_cast; omega)]

/-- State evolution of the scalar loop on a single impulse of amplitude `A`
followed by silence: after `k + 1` whole delay periods both buffers hold
`f ^ k * A` at position `0` (zeros elsewhere) and the cursor is back at `0`. -/
theorem scalarLoop_impulse_state (f wet dry : ℚ) (inL inR : List ℚ) (M D : ℕ)
    (A : ℚ) (hD : 1 ≤ D) (hM : 1 ≤ M)
    (hf0 : 0 ≤ f) (hf1 : f ≤ 1) (hA0 : 0 ≤ A) (hA1 : A ≤ 1)
    (himpL : inL.getD 0 0 = A) (himpR : inR.getD 0 0 = A)
    (hsilL : ∀ j, 1 ≤ j → inL.getD j 0 = 0) (hsilR : ∀ j, 1 ≤ j → inR.getD j 0 = 0) :
    ∀ (k : ℕ) (outL outR : List ℚ),
    (scalarLoop (D : ℤ) f wet dry inL inR 0 ((k + 1) * D)
        ((List.replicate M 0).set 0 0) ((List.replicate M 0).set 0 0)
        0 outL outR).1 =
      (List.replicate M 0).set 0 (f ^ k * A) ∧
    (scalarLoop (D : ℤ) f wet dry inL inR 0 ((k + 1) * D)
        ((List.replicate M 0).set 0 0) ((List.replicate M 0).set 0 0)
        0 outL outR).2.1 =
      (List.replicate M 0).set 0 (f ^ k * A) ∧
    (scalarLoop (D : ℤ) f wet dry inL inR 0 ((k + 1) * D)
        ((List.replicate M 0).set 0 0) ((List.replicate M 0).set 0 0)
        0 outL outR).2.2.1 = 0 := by
  intro k
  induction k with
  | zero =>
      intro outL outR
      rw [Nat.one_mul]
      have hval : inL.getD 0 0 + f * 0 = f ^ 0 * A := by rw [himpL]; ring
      have hvalR : inR.getD 0 0 + f * 0 = f ^ 0 * A := by rw [himpR]; ring
      have hp := scalarLoop_period f wet dry inL inR M D hD hM 0 0 0 outL outR
        (fun j hj => hsilL j hj) (fun j hj => hsilR j hj)
        (by rw [himpL, mul_zero, add_zero]; linarith)
        (by rw [himpL, mul_zero, add_zero]; linarith)
        (by rw [himpR, mul_zero, add_zero]; linarith)
        (by rw [himpR, mul_zero, add_zero]; linarith)
      rw [hval] at hp
      rw [hvalR] at hp
      exact hp
  | succ k ih =>
      intro outL outR
      have hsplit : (k + 1 + 1) * D = (k + 1) * D + D := by ring
      rw [hsplit, scalarLoop_add]
      rcases hr : scalarLoop (D : ℤ) f wet dry inL inR 0 ((k + 1) * D)
          ((List.replicate M 0).set 0 0) ((List.replicate M 0).set 0 0)
          0 outL outR with ⟨B1, B2, I, O1, O2⟩
      have hstate := ih outL outR
      rw [hr] at hstate
      dsimp only at hstate ⊢
      rw [hstate.1, hstate.2.1, hstate.2.2, Nat.zero_add]
      have hpos1 : 1 ≤ (k + 1) * D := Nat.mul_pos (by omega) (by omega)
      have hzero : inL.getD ((k + 1) * D) 0 = 0 := hsilL _ hpos1
      have hzeroR : inR.getD ((k + 1) * D) 0 = 0 := hsilR _ hpos1
      have hpow0 : 0 ≤ f ^ k * A := mul_nonneg (pow_nonneg hf0 k) hA0
      have hpow1 : f ^ k * A ≤ 1 := by
        calc f ^ k * A ≤ 1 * 1 :=
              mul_le_mul (pow_le_one₀ hf0 hf1) hA1 hA0 (by norm_num)
          _ = 1 := by norm_num
      have hmul0 : 0 ≤ f * (f ^ k * A) := mul_nonneg hf0 hpow0
      have hmul1 : f * (f ^ k * A) ≤ 1 := by
        calc f * (f ^ k * A) ≤ 1 * 1 := mul_le_mul hf1 hpow1 hpow0 (by norm_num)
          _ = 1 := by norm_num
      have hp := scalarLoop_period f wet dry inL inR M D hD hM ((k + 1) * D)
        (f ^ k * A) (f ^ k * A) O1 O2
        (fun j hj => hsilL j (by omega)) (fun j hj => hsilR j (by omega))
        (by rw [hzero, zero_add]; linarith)
        (by rw [hzero, zero_add]; linarith)
        (by rw [hzeroR, zero_add]; linarith)
        (by rw [hzeroR, zero_add]; linarith)
      have hval : inL.getD ((k + 1) * D) 0 + f * (f ^ k * A) = f ^ (k + 1) * A := by
        rw [hzero]; ring
      have hvalR : inR.getD ((k + 1) * D) 0 + f * (f ^ k * A) = f ^ (k + 1) * A := by
        rw [hzeroR]; ring
      rw [hval, hvalR] at hp
      exact hp

/-- **C7**: starting from a reset engine with `feedback = f ∈ (0, 0.99]`,
`delaySamples = D`, fixed wet/dry gains, and an input that is a single
impulse of amplitude `A ∈ (0, 1]` at sample `0` followed by silence, the wet
output of the scalar path at sample `k * D` equals `(A * wet / f) * f ^ k`
for every `k ≥ 1` — proportional to `f ^ k` — and that quantity falls below
any chosen `ε > 0` after finitely many echoes. -/
theorem c7_impulse_decay (s : SharcDelayLine) (D M n : ℕ) (A : ℚ)
    (inL inR outL outR : List ℚ)
    (hprep : s.prepared = true)
    (hbL : s.delayLineLeft = List.replicate M 0)
    (hbR : s.delayLineRight = List.replicate M 0)
    (hDs : s.delaySamples = (D : ℤ)) (hidx : s.delayIndex = 0)
    (hD : 1 ≤ D) (hM : 1 ≤ M)
    (hf0 : 0 < s.feedback) (hf1 : s.feedback ≤ 99/100)
    (hw0 : 0 ≤ s.wetMix) (_hw1 : s.wetMix ≤ 1)
    (hA0 : 0 < A) (hA1 : A ≤ 1)
    (himpL : inL.getD 0 0 = A) (himpR : inR.getD 0 0 = A)
    (hsilL : ∀ j, 1 ≤ j → inL.getD j 0 = 0) (hsilR : ∀ j, 1 ≤ j → inR.getD j 0 = 0)
    (hlenL : n ≤ outL.length) (hlenR : n ≤ outR.length) :
    (∀ k, 1 ≤ k → k * D < n →
      (processBlockScalar s inL inR outL outR n).2.1.getD (k * D) 0 =
        (A * s.wetMix / s.feedback) * s.feedback ^ k ∧
      (processBlockScalar s inL inR outL outR n).2.2.getD (k * D) 0 =
        (A * s.wetMix / s.feedback) * s.feedback ^ k) ∧
    (∀ ε : ℚ, 0 < ε → ∃ K, ∀ k, K ≤ k →
      (A * s.wetMix / s.feedback) * s.feedback ^ k < ε) := by
  have hfne : s.feedback ≠ 0 := ne_of_gt hf0
  constructor
  · intro k hk hkn
    obtain ⟨k', rfl⟩ : ∃ k', k = k' + 1 := ⟨k - 1, by omega⟩
    rw [processBlockScalar_prepared s inL inR outL outR n hprep]
    dsimp only
    rw [hbL, hbR, hDs, hidx]
    have h00 : List.replicate M (0 : ℚ) = (List.replicate M 0).set 0 0 :=
      (set_replicate_zero M 0).symm
    rw [h00]
    obtain ⟨r, hn⟩ : ∃ r, n = (k' + 1) * D + (1 + r) := ⟨n - (k' + 1) * D - 1, by omega⟩
    rw [hn, scalarLoop_add]
    rcases hfirst : scalarLoop (D : ℤ) s.feedback s.wetMix s.dryMix inL inR 0
        ((k' + 1) * D) ((List.replicate M 0).set 0 0) ((List.replicate M 0).set 0 0)
        0 outL outR with ⟨B1, B2, I, O1, O2⟩
    have hst := scalarLoop_impulse_state s.feedback s.wetMix s.dryMix inL inR M D A
      hD hM (le_of_lt hf0) (by linarith) (le_of_lt hA0) hA1 himpL himpR hsilL hsilR
      k' outL outR
    rw [hfirst] at hst
    dsimp only at hst
    have hlen1 := scalarLoop_out_length (D : ℤ) s.feedback s.wetMix s.dryMix inL inR
      ((k' + 1) * D) 0 ((List.replicate M 0).set 0 0) ((List.replicate M 0).set 0 0)
      0 outL outR
    rw [hfirst] at hlen1
    dsimp only at hlen1
    dsimp only
    rw [Nat.zero_add, hst.1, hst.2.1, hst.2.2, scalarLoop_add]
    rcases hsec : scalarLoop (D : ℤ) s.feedback s.wetMix s.dryMix inL inR
        ((k' + 1) * D) 1 ((List.replicate M 0).set 0 (s.feedback ^ k' * A))
        ((List.replicate M 0).set 0 (s.feedback ^ k' * A)) 0 O1 O2
      with ⟨C1, C2, J, P1, P2⟩
    have hcomp : scalarLoop (D : ℤ) s.feedback s.wetMix s.dryMix inL inR
        ((k' + 1) * D) 1 ((List.replicate M 0).set 0 (s.feedback ^ k' * A))
        ((List.replicate M 0).set 0 (s.feedback ^ k' * A)) 0 O1 O2 =
        (((List.replicate M 0).set 0 (s.feedback ^ k' * A)).set ((0 : ℤ)).toNat
          (jlimit (-1) 1 (inL.getD ((k' + 1) * D) 0 + s.feedback *
            ((List.replicate M 0).set 0 (s.feedback ^ k' * A)).getD ((0 : ℤ)).toNat 0)),
        ((List.replicate M 0).set 0 (s.feedback ^ k' * A)).set ((0 : ℤ)).toNat
          (jlimit (-1) 1 (inR.getD ((k' + 1) * D) 0 + s.feedback *
            ((List.replicate M 0).set 0 (s.feedback ^ k' * A)).getD ((0 : ℤ)).toNat 0)),
        (if (0 : ℤ) + 1 ≥ (D : ℤ) then 0 else 0 + 1),
        O1.set ((k' + 1) * D) (inL.getD ((k' + 1) * D) 0 * s.dryMix +
          ((List.replicate M 0).set 0 (s.feedback ^ k' * A)).getD ((0 : ℤ)).toNat 0 *
            s.wetMix),
        O2.set ((k' + 1) * D) (inR.getD ((k' + 1) * D) 0 * s.dryMix +
          ((List.replicate M 0).set 0 (s.feedback ^ k' * A)).getD ((0 : ℤ)).toNat 0 *
            s.wetMix)) := rfl
    rw [hsec] at hcomp
    have hpos1 : 1 ≤ (k' + 1) * D := Nat.mul_pos (by omega) (by omega)
    have hzL : inL.getD ((k' + 1) * D) 0 = 0 := hsilL _ hpos1
    have hzR : inR.getD ((k' + 1) * D) 0 = 0 := hsilR _ hpos1
    have hhead : ((List.replicate M 0).set 0 (s.feedback ^ k' * A)).getD
        ((0 : ℤ)).toNat 0 = s.feedback ^ k' * A := by
      rw [Int.toNat_zero, getD_set_zero_head M _ hM]
    rw [hzL, hzR, hhead] at hcomp
    simp only [Prod.mk.injEq] at hcomp
    dsimp only
    have hlo := scalarLoop_out_lo (D : ℤ) s.feedback s.wetMix s.dryMix inL inR r
      ((k' + 1) * D + 1) ((k' + 1) * D) C1 C2 J P1 P2 (by omega)
    rw [hlo.1, hlo.2, hcomp.2.2.2.1, hcomp.2.2.2.2]
    have hP1 : ((k' + 1) * D) < O1.length := by rw [hlen1.1]; omega
    have hP2 : ((k' + 1) * D) < O2.length := by rw [hlen1.2]; omega
    rw [getD_set_self _ _ _ _ hP1, getD_set_self _ _ _ _ hP2]
    constructor
    · field_simp
      ring
    · field_simp
      ring
  · intro ε hε
    set C : ℚ := A * s.wetMix / s.feedback with hC
    have hC0 : 0 ≤ C :=
      div_nonneg (mul_nonneg (le_of_lt hA0) hw0) (le_of_lt hf0)
    have hflt : s.feedback < 1 := by linarith
    obtain ⟨K, hK⟩ := exists_pow_lt_of_lt_one
      (show (0 : ℚ) < ε / (C + 1) from div_pos hε (by linarith)) hflt
    refine ⟨K, fun k hk => ?_⟩
    have h1 : s.feedback ^ k ≤ s.feedback ^ K :=
      pow_le_pow_of_le_one (le_of_lt hf0) (le_of_lt hflt) hk
    have h2 : C * s.feedback ^ k ≤ C * s.feedback ^ K :=
      mul_le_mul_of_nonneg_left h1 hC0
    have h3 : C * s.feedback ^ K ≤ (C + 1) * s.feedback ^ K :=
      mul_le_mul_of_nonneg_right (by linarith) (pow_nonneg (le_of_lt hf0) K)
    have h4 : (C + 1) * s.feedback ^ K < (C + 1) * (ε / (C + 1)) :=
      mul_lt_mul_of_pos_left hK (by linarith)
    have h5 : (C + 1) * (ε / (C + 1)) = ε := by field_simp
    linarith


/-- **C7 (witness)**: first echo of a unit impulse with `D = 2`, `f = 1/2` in
a 5-sample block: the wet output at sample `2` equals
`(1 * 1 / (1/2)) * (1/2)^1 = 1/2`. -/
theorem c7_witness :
    (processBlockScalar c7state [1, 0, 0, 0, 0] [1, 0, 0, 0, 0]
        [0, 0, 0, 0, 0] [0, 0, 0, 0, 0] 5).2.1.getD (1 * 2) 0 =
      ((1 : ℚ) * c7state.wetMix / c7state.feedback) * c7state.feedback ^ 1 ∧
    (processBlockScalar c7state [1, 0, 0, 0, 0] [1, 0, 0, 0, 0]
        [0, 0, 0, 0, 0] [0, 0, 0, 0, 0] 5).2.2.getD (1 * 2) 0 =
      ((1 : ℚ) * c7state.wetMix / c7state.feedback) * c7state.feedback ^ 1 := by
  have hsil : ∀ j, 1 ≤ j → ([1, 0, 0, 0, 0] : List ℚ).getD j 0 = 0 := by
    intro j hj
    rcases j with _ | _ | _ | _ | _ | m
    · omega
    · rfl
    · rfl
    · rfl
    · rfl
    · exact getD_oob _ _ _ (by simp only [List.length_cons, List.length_nil]; omega)
  exact (c7_impulse_decay c7state 2 3 5 1 [1, 0, 0, 0, 0] [1, 0, 0, 0, 0]
    [0, 0, 0, 0, 0] [0, 0, 0, 0, 0] rfl rfl rfl rfl rfl (by norm_num) (by norm_num)
    (by norm_num [c7state]) (by norm_num [c7state]) (by norm_num [c7state])
    (by norm_num [c7state]) (by norm_num) (by norm_num) rfl rfl hsil hsil
    (by norm_num) (by norm_num)).1 1 (by norm_num) (by norm_num)

/-! ### Claim C10: the SIMD path's entry precondition -/

theorem scalarLoop_idx_bounds (len : ℤ) (fb wet dry : ℚ) (inL inR : List ℚ) :
    ∀ (k i : ℕ) (bufL bufR : List ℚ) (idx : ℤ) (outL outR : List ℚ),
    0 ≤ idx → idx < len →
    0 ≤ (scalarLoop len fb wet dry inL inR i k bufL bufR idx outL outR).2.2.1 ∧
      (scalarLoop len fb wet dry inL inR i k bufL bufR idx outL outR).2.2.1 < len := by
  intro k
  induction k with
  | zero => intro i bufL bufR idx outL outR h0 h1; exact ⟨h0, h1⟩
  | succ k ih =>
      intro i bufL bufR idx outL outR h0 h1
      refine ih (i + 1) _ _ _ _ _ ?_ ?_ <;> split <;> omega

/-- Under the entry precondition, the cursor trace of the SIMD outer loop is
defined and every lap has a strictly positive `samplesToEdge` with all its
buffer accesses (`idx`, …, `idx + samplesToEdge - 1`) inside
`[0, delaySamples)`. -/
theorem simdIdxTrace_bounds (w : ℕ) (len : ℤ) (hw : 0 < w) :
    ∀ (fuel : ℕ) (rem idx : ℤ), 0 ≤ idx → idx < len → 0 ≤ rem → rem ≤ fuel →
    ∃ tr, simdIdxTrace w len fuel rem idx = some tr ∧
      ∀ p ∈ tr, 0 ≤ p.1 ∧ 0 < p.2 ∧ p.1 + p.2 ≤ len := by
  intro fuel
  induction fuel with
  | zero =>
      intro rem idx h0 h1 h2 h3
      have : ¬ 0 < rem := by omega
      refine ⟨[], ?_, by intro p hp; simp at hp⟩
      rw [simdIdxTrace, if_neg this]
  | succ fuel ih =>
      intro rem idx h0 h1 h2 h3
      by_cases h : 0 < rem
      · have hww : (0 : ℤ) < (w : ℤ) := by exact_mod_cast hw
        have hE1 : 0 < min rem (len - idx) := lt_min h (by omega)
        have hE2 : min rem (len - idx) ≤ len - idx := min_le_right _ _
        have hE3 : min rem (len - idx) ≤ rem := min_le_left _ _
        have hq0 : 0 ≤ (min rem (len - idx)).tdiv (w : ℤ) :=
          Int.tdiv_nonneg (le_of_lt hE1) (le_of_lt hww)
        have hr0 : 0 ≤ (min rem (len - idx)).tmod (w : ℤ) :=
          Int.tmod_nonneg _ (le_of_lt hE1)
        have hid : (w : ℤ) * ((min rem (len - idx)).tdiv (w : ℤ)) +
            (min rem (len - idx)).tmod (w : ℤ) = min rem (len - idx) :=
          Int.tdiv_add_tmod _ _
        have hidx2 : idx + ((min rem (len - idx)).tdiv (w : ℤ)) * (w : ℤ) +
            (((min rem (len - idx)).tmod (w : ℤ)).toNat : ℤ) =
            idx + min rem (len - idx) := by
          rw [Int.toNat_of_nonneg hr0]
          linarith [hid]
        obtain ⟨tr, htr, hbound⟩ := ih (rem - min rem (len - idx))
          (if idx + min rem (len - idx) ≥ len then 0
            else idx + min rem (len - idx))
          (by split <;> omega)
          (by split <;> omega)
          (by omega) (by omega)
        refine ⟨(idx, min rem (len - idx)) :: tr, ?_, ?_⟩
        · rw [simdIdxTrace, if_pos h]
          dsimp only
          rw [hidx2, htr]
          rfl
        · intro p hp
          rcases List.mem_cons.mp hp with hp1 | hp2
          · rw [hp1]
            exact ⟨h0, hE1, by omega⟩
          · exact hbound p hp2
      · refine ⟨[], ?_, by intro p hp; simp at hp⟩
        rw [simdIdxTrace, if_neg h]

/-- The ghost cursor trace (`simdIdxTrace`) mirrors the outer loop exactly:
the loop exhausts its lap budget if and only if the trace does. -/
theorem simdOuterLoop_none_iff (w : ℕ) (len : ℤ) (fb wet dry : ℚ)
    (inL inR : List ℚ) :
    ∀ (fuel : ℕ) (rem : ℤ) (pos : ℕ) (idx : ℤ) (bufL bufR outL outR : List ℚ),
    (simdOuterLoop w len fb wet dry inL inR fuel rem pos idx bufL bufR outL outR =
        none ↔
      simdIdxTrace w len fuel rem idx = none) := by
  intro fuel
  induction fuel with
  | zero =>
      intro rem pos idx bufL bufR outL outR
      by_cases h : 0 < rem
      · rw [simdOuterLoop, if_pos h, simdIdxTrace, if_pos h]
        simp
      · rw [simdOuterLoop, if_neg h, simdIdxTrace, if_neg h]
        simp
  | succ fuel ih =>
      intro rem pos idx bufL bufR outL outR
      by_cases h : 0 < rem
      · simp only [simdOuterLoop, simdIdxTrace]
        rw [if_pos h, if_pos h, Option.map_eq_none', ih, simdTailLoop_idx]
      · rw [simdOuterLoop, if_neg h, simdIdxTrace, if_neg h]
        simp


/-- **C10**: (i) for every call of `processBlockSIMD` on a prepared engine
satisfying the entry precondition `0 ≤ delayIndex < delaySamples`, the cursor
trace is defined with every lap's `samplesToEdge` strictly positive and every
buffer access inside `[0, delaySamples)` (`simdIdxTrace_bounds`, tied to the
loop by `simdOuterLoop_none_iff`), the outer loop terminates producing
exactly the scalar path's result — hence exactly `numSamples` values per
output channel: lengths preserved, positions `≥ numSamples` untouched, the
rest populated as by the scalar path — and the final cursor again lies in
`[0, delaySamples)`; (ii) the precondition is genuine: `setDelaySeconds` can
shrink `delaySamples` below the current cursor without moving it; and (iii)
with the precondition violated the guarantees fail: on `badState`
(`delayIndex = 5 ≥ delaySamples = 3`) a one-sample SIMD call overwrites
output position `1 ≥ numSamples`. -/
theorem c10_simd_precondition :
    (∀ (w : ℕ) (s : SharcDelayLine) (inL inR outL outR : List ℚ) (n : ℕ),
      0 < w → s.prepared = true → 0 ≤ s.delayIndex →
      s.delayIndex < s.delaySamples →
      (∃ tr, simdIdxTrace w s.delaySamples (simdFuel s n) (n : ℤ) s.delayIndex =
          some tr ∧
        ∀ p ∈ tr, 0 ≤ p.1 ∧ 0 < p.2 ∧ p.1 + p.2 ≤ s.delaySamples) ∧
      processBlockSIMD w s inL inR outL outR n =
        some (processBlockScalar s inL inR outL outR n) ∧
      0 ≤ (processBlockScalar s inL inR outL outR n).1.delayIndex ∧
      (processBlockScalar s inL inR outL outR n).1.delayIndex < s.delaySamples ∧
      (processBlockScalar s inL inR outL outR n).2.1.length = outL.length ∧
      (processBlockScalar s inL inR outL outR n).2.2.length = outR.length ∧
      (∀ j, n ≤ j →
        (processBlockScalar s inL inR outL outR n).2.1.getD j 0 = outL.getD j 0 ∧
        (processBlockScalar s inL inR outL outR n).2.2.getD j 0 = outR.getD j 0)) ∧
    ((setDelaySeconds c10shrink (2/10)).delaySamples <
        (setDelaySeconds c10shrink (2/10)).delayIndex ∧
      (setDelaySeconds c10shrink (2/10)).delayIndex = c10shrink.delayIndex) ∧
    ((processBlockSIMD 4 badState [0, 0, 0] [0, 0, 0] [7, 7, 7] [7, 7, 7] 1).map
        (fun r => r.2.1.getD 1 0) = some 0 ∧
      (([7, 7, 7] : List ℚ).getD 1 0 = 7)) := by
  refine ⟨?_, ?_, ?_⟩
  · intro w s inL inR outL outR n hw hprep h0 h1
    have htr := simdIdxTrace_bounds w s.delaySamples hw (simdFuel s n) (n : ℤ)
      s.delayIndex h0 h1 (Int.natCast_nonneg n) (by unfold simdFuel; push_cast; omega)
    have hunf := processBlockScalar_prepared s inL inR outL outR n hprep
    rcases hsc : scalarLoop s.delaySamples s.feedback s.wetMix s.dryMix inL inR 0 n
      s.delayLineLeft s.delayLineRight s.delayIndex outL outR with ⟨B1, B2, I, O1, O2⟩
    rw [hsc] at hunf
    dsimp only at hunf
    have hIb := scalarLoop_idx_bounds s.delaySamples s.feedback s.wetMix s.dryMix
      inL inR n 0 s.delayLineLeft s.delayLineRight s.delayIndex outL outR h0 h1
    rw [hsc] at hIb
    dsimp only at hIb
    have hlen := scalarLoop_out_length s.delaySamples s.feedback s.wetMix s.dryMix
      inL inR n 0 s.delayLineLeft s.delayLineRight s.delayIndex outL outR
    rw [hsc] at hlen
    dsimp only at hlen
    refine ⟨htr, simd_scalar_agree w s inL inR outL outR n hw hprep h0 h1,
      ?_, ?_, ?_, ?_, ?_⟩
    · rw [hunf]; exact hIb.1
    · rw [hunf]; exact hIb.2
    · rw [hunf]; exact hlen.1
    · rw [hunf]; exact hlen.2
    · intro j hj
      have hhi := scalarLoop_out_hi s.delaySamples s.feedback s.wetMix s.dryMix
        inL inR n 0 j s.delayLineLeft s.delayLineRight s.delayIndex outL outR
        (by omega)
      rw [hsc] at hhi
      dsimp only at hhi
      rw [hunf]
      exact hhi
  · have h1 : truncQ ((2 : ℚ)/10 * c10shrink.sRate) = 2 := by
      show truncQ ((2 : ℚ)/10 * 10) = 2
      unfold truncQ
      rw [if_pos (by norm_num)]
      norm_num
    constructor
    · show jlimit 1 c10shrink.maxDelaySamples (truncQ ((2 : ℚ)/10 * c10shrink.sRate)) <
        c10shrink.delayIndex
      rw [h1]
      decide
    · rfl
  · constructor
    · have h1 : ((-2 : ℤ)).tdiv 4 = 0 := by decide
      have h2 : ((-2 : ℤ)).tmod 4 = -2 := by decide
      have h3 : ((3 : ℤ)).tdiv 4 = 0 := by decide
      have h4 : ((3 : ℤ)).tmod 4 = 3 := by decide
      have h5 : ((-2 : ℤ)).toNat = 0 := by decide
      have h6 : ((3 : ℤ)).toNat = 3 := by decide
      have h7 : ((5 : ℤ)).toNat = 5 := by decide
      have h8 : ((0 : ℤ)).toNat = 0 := by decide
      norm_num [processBlockSIMD, simdOuterLoop, simdChunkLoop,
        simdTailLoop, simdFuel, jlimit, badState, loadVec, storeVec,
        getD_cons_zero, getD_cons_succ, getD_nil, getD_replicate_zero,
        set_replicate_zero, List.getD, List.replicate, h1, h2, h3, h4, h5, h6, h7, h8]
    · rfl

/-- **C10 (witness)**: the precondition conclusions at a concrete prepared
engine (`delayIndex = 0 < delaySamples = 3`) and a 2-sample block. -/
theorem c10_witness :
    processBlockSIMD 4 wState [1, 0] [1, 0] [0, 0] [0, 0] 2 =
      some (processBlockScalar wState [1, 0] [1, 0] [0, 0] [0, 0] 2) ∧
    (processBlockScalar wState [1, 0] [1, 0] [0, 0] [0, 0] 2).1.delayIndex <
      wState.delaySamples :=
  ⟨(c10_simd_precondition.1 4 wState [1, 0] [1, 0] [0, 0] [0, 0] 2
      (by decide) rfl (by decide) (by decide)).2.1,
    (c10_simd_precondition.1 4 wState [1, 0] [1, 0] [0, 0] [0, 0] 2
      (by decide) rfl (by decide) (by decide)).2.2.2.1⟩

end SharcSpec
